import Mathlib

/-!
A shallow embedding of SVF's memory-SSA construction (`lib/MSSA/MemSSA.cpp`):
`createMUCHI`, `insertPHI`, `SSARename`/`SSARenameBB` and `newSSAName`,
together with the small inline helpers from `MemSSA.h` that these functions
call (`AddLoadMU`, `AddStoreCHI`, `AddCallSiteMU`, `AddCallSiteCHI`,
`RenameMuSet`, `RenameChiSet`, `RenamePhiRes`, `RenamePhiOps`,
`getTopStackVer`, `getBBPredecessorPos`), which are modelled from the spec
since the header is not part of the sources.

Memory regions and basic blocks are identified by natural numbers.  C++
ordered maps keyed by pointers become association lists; C++ `std::vector`
stacks are Lean lists whose HEAD is the vector's BACK (top of stack).
Fatal `assert` failures are modelled as `Except.error`; the recursions of
`insertPHI` and `SSARenameBB` take explicit fuel.
-/

namespace MemSSA

/-- Memory region identifier (a `MemRegion*` in the source). -/
abbrev MR := Nat

/-- Basic block identifier (a `BasicBlock*` in the source). -/
abbrev BB := Nat

/-! ### Association-list maps (C++ `Map` keyed by pointers) -/

/-- Lookup in an association list (`map.find(k)`; `none` = key absent). -/
def getAssoc {β : Type} (k : Nat) : List (Nat × β) → Option β
  | [] => none
  | (k1, v) :: rest => if k1 = k then some v else getAssoc k rest

/-- Insert-or-assign (`map[k] = v` through `operator[]`). -/
def setAssoc {β : Type} (k : Nat) (v : β) : List (Nat × β) → List (Nat × β)
  | [] => [(k, v)]
  | (k1, v1) :: rest =>
      if k1 = k then (k, v) :: rest else (k1, v1) :: setAssoc k v rest

/-! ### Versions and SSA nodes -/

/-- A versioned memory region, `MRVer` (the owning-def pointer carried by the
C++ `MRVer` is not needed by any property below and is elided). -/
structure MRVer where
  mr : MR
  version : Nat
deriving DecidableEq, Repr

/-- Identity of a mu/chi/phi node.  Instruction-attached nodes are keyed by
their block, the instruction's index in the block, and (for PAG-edge nodes)
the edge's index in the instruction's edge list, mirroring the C++ maps keyed
by `LoadPE*` / `StorePE*` / `CallBlockNode*` pointers. -/
inductive NodeId where
  | loadMu (bb : BB) (instIdx : Nat) (edgeIdx : Nat) (mr : MR)
  | storeChi (bb : BB) (instIdx : Nat) (edgeIdx : Nat) (mr : MR)
  | callMu (bb : BB) (instIdx : Nat) (mr : MR)
  | callChi (bb : BB) (instIdx : Nat) (mr : MR)
  | entryChi (mr : MR)
  | retMu (mr : MR)
  | phi (bb : BB) (mr : MR)
deriving DecidableEq, Repr

/-- A mu/chi/phi node with its (initially unassigned) versions.
`opVer` is a mu's use version or a chi's incoming version; `resVer` is a
chi's or phi's result version; `phiOps` maps a predecessor position to the
phi operand filled at that position (`MSSAPHI::setOpVer(ver, pos)`). -/
structure Node where
  id : NodeId
  opVer : Option MRVer := none
  resVer : Option MRVer := none
  phiOps : List (Nat × MRVer) := []
deriving DecidableEq, Repr

/-! ### Program representation consumed by the builder -/

/-- A PAG edge attached to an instruction, with the memory regions of its
`getLoadMRSet` / `getStoreMRSet`. -/
inductive PAGEdge where
  | load (mrs : List MR)
  | store (mrs : List MR)
deriving DecidableEq, Repr

/-- The memory-relevant content of one instruction, as inspected by
`createMUCHI` and `SSARenameBB`: its PAG edge list, whether it is a
non-intrinsic call site (with the call's ref/mod region sets), and whether
it is a return. -/
structure Inst where
  pagEdges : List PAGEdge := []
  isCall : Bool := false
  refMRs : List MR := []
  modMRs : List MR := []
  isRet : Bool := false
deriving DecidableEq, Repr

/-- A function together with the external facts the builder consumes:
reachable blocks (`getFunReachableBBs`), instruction lists, CFG successor
and predecessor lists, dominator-tree children (`none` models
`dt->getNode(bb) == NULL`), the dominance-frontier map (a finite map;
absence of a block models `df->find(bb) == df->end()`), `isExtCall` and
`functionDoesNotRet`. -/
structure Func where
  entry : BB
  reachable : List BB
  insts : BB → List Inst
  succs : BB → List BB
  preds : BB → List BB
  domChildren : BB → Option (List BB)
  df : List (BB × List BB)
  isExt : Bool
  doesNotRet : Bool

/-! ### Builder state -/

/-- The per-function mutable state of `MemSSA`: the used-region set, the
region-to-defining-blocks map, the per-region version counters and version
stacks, all created nodes, and the warning messages emitted so far.
Stacks are lists with the head as the top (the C++ vector's back). -/
structure SSAState where
  usedRegs : List MR := []
  reg2BBMap : List (MR × List BB) := []
  mr2CounterMap : List (MR × Nat) := []
  mr2VerStackMap : List (MR × List MRVer) := []
  nodes : List Node := []
  warnings : List String := []
deriving Repr

/-- The version stack of a region (empty when the key is absent). -/
def stackOf (s : SSAState) (mr : MR) : List MRVer :=
  (getAssoc mr s.mr2VerStackMap).getD []

/-- `MemSSA::newSSAName`: asserts that the region's counter and stack were
initialized, mints the version equal to the current counter, bumps the
counter by one and pushes the new version onto the region's stack. -/
def newSSAName (s : SSAState) (mr : MR) : Except String (MRVer × SSAState) :=
  match getAssoc mr s.mr2CounterMap with
  | none => .error "did not find initial version in map? "
  | some version =>
    match getAssoc mr s.mr2VerStackMap with
    | none => .error "did not find initial stack in map? "
    | some stk =>
      let mrVer : MRVer := ⟨mr, version⟩
      .ok (mrVer,
        { s with
          mr2CounterMap := setAssoc mr (version + 1) s.mr2CounterMap
          mr2VerStackMap := setAssoc mr (mrVer :: stk) s.mr2VerStackMap })

/-! ### Def/use site creation (`createMUCHI` and its `MemSSA.h` helpers) -/

/-- Modelled from the spec: inserting a region into the used-region set
(`usedRegs.insert(mr)`); a set, so inserting an existing member is a no-op. -/
def insertUsedReg (s : SSAState) (mr : MR) : SSAState :=
  if mr ∈ s.usedRegs then s else { s with usedRegs := s.usedRegs ++ [mr] }

/-- Modelled from the spec: recording a locally-defining block for a region
(`reg2BBMap[mr].insert(bb)`); a block appears at most once per region. -/
def insertRegBB (s : SSAState) (mr : MR) (bb : BB) : SSAState :=
  let bbs := (getAssoc mr s.reg2BBMap).getD []
  if bb ∈ bbs then s
  else { s with reg2BBMap := setAssoc mr (bbs ++ [bb]) s.reg2BBMap }

/-- Append a freshly created, still unversioned node. -/
def addNode (s : SSAState) (id : NodeId) : SSAState :=
  { s with nodes := s.nodes ++ [{ id := id }] }

/-- Modelled from the spec: `AddLoadMU` — one load-mu per region of the
load's region set; the region becomes used. -/
def AddLoadMU (s : SSAState) (bb : BB) (instIdx edgeIdx : Nat) (mrs : List MR) : SSAState :=
  mrs.foldl (fun s mr => insertUsedReg (addNode s (.loadMu bb instIdx edgeIdx mr)) mr) s

/-- Modelled from the spec: `AddStoreCHI` — one store-chi per region of the
store's region set; the region becomes used and the block is recorded as a
locally-defining block of the region. -/
def AddStoreCHI (s : SSAState) (bb : BB) (instIdx edgeIdx : Nat) (mrs : List MR) : SSAState :=
  mrs.foldl
    (fun s mr => insertRegBB (insertUsedReg (addNode s (.storeChi bb instIdx edgeIdx mr)) mr) mr bb) s

/-- Modelled from the spec: `AddCallSiteMU` — one call-mu per region the call
may reference. -/
def AddCallSiteMU (s : SSAState) (bb : BB) (instIdx : Nat) (mrs : List MR) : SSAState :=
  mrs.foldl (fun s mr => insertUsedReg (addNode s (.callMu bb instIdx mr)) mr) s

/-- Modelled from the spec: `AddCallSiteCHI` — one call-chi per region the
call may modify; the region becomes used and the block is recorded as a
locally-defining block. -/
def AddCallSiteCHI (s : SSAState) (bb : BB) (instIdx : Nat) (mrs : List MR) : SSAState :=
  mrs.foldl
    (fun s mr => insertRegBB (insertUsedReg (addNode s (.callChi bb instIdx mr)) mr) mr bb) s

/-- The per-PAG-edge step of `createMUCHI`'s instruction walk. -/
def muchiEdge (bb : BB) (instIdx : Nat) (s : SSAState) (e : Nat × PAGEdge) : SSAState :=
  match e.2 with
  | .load mrs => AddLoadMU s bb instIdx e.1 mrs
  | .store mrs => AddStoreCHI s bb instIdx e.1 mrs

/-- The per-instruction step of `createMUCHI`: loads/stores from the PAG
edge list, then call-site mu/chi for non-intrinsic call sites. -/
def muchiInst (bb : BB) (s : SSAState) (i : Nat × Inst) : SSAState :=
  let s := (i.2.pagEdges.enum).foldl (muchiEdge bb i.1) s
  if i.2.isCall then
    AddCallSiteCHI (AddCallSiteMU s bb i.1 i.2.refMRs) bb i.1 i.2.modMRs
  else s

/-- The per-block step of `createMUCHI`'s walk over reachable blocks. -/
def muchiBB (f : Func) (s : SSAState) (bb : BB) : SSAState :=
  ((f.insts bb).enum).foldl (muchiInst bb) s

/-- The entry-chi/return-mu bootstrapping loop body of `createMUCHI`: reset
the region's counter to 0 and clear its stack, create the entry chi with a
minted incoming and a minted result version, and create the return mu
unless the function provably does not return. -/
def createEntryForMR (f : Func) (s : SSAState) (mr : MR) : Except String SSAState := do
  let s := { s with
    mr2CounterMap := setAssoc mr 0 s.mr2CounterMap
    mr2VerStackMap := setAssoc mr [] s.mr2VerStackMap }
  let (opv, s) ← newSSAName s mr
  let (resv, s) ← newSSAName s mr
  let s := { s with
    nodes := s.nodes ++ [{ id := .entryChi mr, opVer := some opv, resVer := some resv }] }
  if f.doesNotRet = false then
    pure { s with nodes := s.nodes ++ [{ id := .retMu mr }] }
  else
    pure s

/-- `MemSSA::createMUCHI`: walk the reachable blocks creating mu/chi nodes
and collecting used regions and locally-defining blocks, then bootstrap
every used region with an entry chi (and a return mu when the function may
return). -/
def createMUCHI (f : Func) (s : SSAState) : Except String SSAState :=
  let s := f.reachable.foldl (muchiBB f) s
  s.usedRegs.foldlM (createEntryForMR f) s

/-! ### Phi insertion (`insertPHI`) -/

/-- `df->find(bb)`: `none` models a miss of the dominance-frontier map. -/
def dfLookup (f : Func) (bb : BB) : Option (List BB) := getAssoc bb f.df

/-- Append a phi node for `(bb, mr)`. -/
def addPhiNode (s : SSAState) (bb : BB) (mr : MR) : SSAState :=
  { s with nodes := s.nodes ++ [{ id := .phi bb mr }] }

/-- The per-frontier-block step of `insertPHI`: if no phi for `(pbb, mr)`
was inserted before, record it in the dedup map, insert the phi node and
push the frontier block back onto the worklist. -/
def phiFrontierStep (mr : MR) (acc : List BB × List (BB × MR) × SSAState) (pbb : BB) :
    List BB × List (BB × MR) × SSAState :=
  if (pbb, mr) ∈ acc.2.1 then acc
  else (pbb :: acc.1, (pbb, mr) :: acc.2.1, addPhiNode acc.2.2 pbb mr)

/-- The worklist loop of `insertPHI` for one region.  The worklist is a
list whose head is the next block popped (the C++ vector's back); a
dominance-frontier miss emits a warning and skips the block.  Fuel bounds
the recursion; `none` means the fuel ran out. -/
def insertPHILoop (f : Func) (mr : MR) :
    Nat → List BB → List (BB × MR) → SSAState → Option (List (BB × MR) × SSAState)
  | _, [], dedup, s => some (dedup, s)
  | 0, _ :: _, _, _ => none
  | fuel + 1, bb :: ws, dedup, s =>
    match dfLookup f bb with
    | none =>
        insertPHILoop f mr fuel ws dedup
          { s with warnings := s.warnings ++ ["bb not in the dominance frontier map??"] }
    | some domSet =>
        let acc := domSet.foldl (phiFrontierStep mr) (ws, dedup, s)
        insertPHILoop f mr fuel acc.1 acc.2.1 acc.2.2

/-- All blocks that ever appear in a dominance-frontier set: every block the
worklist loop can push comes from this list, which bounds the loop. -/
def dfUniverse (f : Func) : List BB := ((f.df.map Prod.snd).flatten).dedup

/-- Sufficient fuel for one region's worklist loop: the initial worklist
length plus the number of frontier blocks that could ever be pushed. -/
def phiFuel (f : Func) (ws : List BB) : Nat := ws.length + (dfUniverse f).length

/-- The initial worklist of a region: its locally-defining blocks
(`BBList bbs = reg2BBMap[mr]`), reversed because the C++ loop pops from the
vector's back while our representation pops the head. -/
def initialWorklist (s : SSAState) (mr : MR) : List BB :=
  ((getAssoc mr s.reg2BBMap).getD []).reverse

/-- `MemSSA::insertPHI`: run the worklist loop for every used region,
sharing one `(block, region)` dedup map across regions. -/
def insertPHI (f : Func) (s : SSAState) : Option SSAState :=
  (s.usedRegs.foldlM
      (fun (acc : List (BB × MR) × SSAState) mr =>
        let ws := initialWorklist acc.2 mr
        insertPHILoop f mr (phiFuel f ws) ws acc.1 acc.2)
      (([] : List (BB × MR)), s)).map Prod.snd

/-! ### Renaming (`SSARename` / `SSARenameBB` and its `MemSSA.h` helpers) -/

/-- Modelled from the spec: `getTopStackVer` — the top of a region's version
stack; an empty (or absent) stack is an assertion failure. -/
def getTopStackVer (s : SSAState) (mr : MR) : Except String MRVer :=
  match stackOf s mr with
  | [] => .error "stack is empty!!"
  | v :: _ => .ok v

/-- Apply `g` to the node with identity `id` (a field assignment on one
node object of a node set). -/
def updateNode (s : SSAState) (id : NodeId) (g : Node → Node) : SSAState :=
  { s with nodes := s.nodes.map (fun n => if n.id = id then g n else n) }

/-- `getMUSet(load)`: the mu nodes of a load, with their regions. -/
def muNodesOfLoad (s : SSAState) (bb : BB) (instIdx edgeIdx : Nat) : List (NodeId × MR) :=
  s.nodes.filterMap (fun n =>
    match n.id with
    | .loadMu b i e mr =>
        if b = bb ∧ i = instIdx ∧ e = edgeIdx then some (n.id, mr) else none
    | _ => none)

/-- `getCHISet(store)`: the chi nodes of a store, with their regions. -/
def chiNodesOfStore (s : SSAState) (bb : BB) (instIdx edgeIdx : Nat) : List (NodeId × MR) :=
  s.nodes.filterMap (fun n =>
    match n.id with
    | .storeChi b i e mr =>
        if b = bb ∧ i = instIdx ∧ e = edgeIdx then some (n.id, mr) else none
    | _ => none)

/-- `getMUSet(cs)`: the mu nodes of a call site. -/
def muNodesOfCall (s : SSAState) (bb : BB) (instIdx : Nat) : List (NodeId × MR) :=
  s.nodes.filterMap (fun n =>
    match n.id with
    | .callMu b i mr => if b = bb ∧ i = instIdx then some (n.id, mr) else none
    | _ => none)

/-- `getCHISet(cs)`: the chi nodes of a call site. -/
def chiNodesOfCall (s : SSAState) (bb : BB) (instIdx : Nat) : List (NodeId × MR) :=
  s.nodes.filterMap (fun n =>
    match n.id with
    | .callChi b i mr => if b = bb ∧ i = instIdx then some (n.id, mr) else none
    | _ => none)

/-- `getReturnMuSet(fun)`: the function's return mu nodes. -/
def retMuNodes (s : SSAState) : List (NodeId × MR) :=
  s.nodes.filterMap (fun n =>
    match n.id with
    | .retMu mr => some (n.id, mr)
    | _ => none)

/-- `getPHISet(bb)`: the phi nodes attached to a block. -/
def phiNodesAt (s : SSAState) (bb : BB) : List (NodeId × MR) :=
  s.nodes.filterMap (fun n =>
    match n.id with
    | .phi b mr => if b = bb then some (n.id, mr) else none
    | _ => none)

/-- One mu of a mu set: assign the region's top-of-stack version as the
mu's operand. -/
def renameMuStep (s : SSAState) (p : NodeId × MR) : Except String SSAState := do
  let v ← getTopStackVer s p.2
  pure (updateNode s p.1 (fun n => { n with opVer := some v }))

/-- Modelled from the spec: `RenameMuSet` — every mu of the set has its
region's top-of-stack version assigned as its operand. -/
def RenameMuSet (s : SSAState) (mus : List (NodeId × MR)) : Except String SSAState :=
  mus.foldlM renameMuStep s

/-- One chi of a chi set: record the current top-of-stack as the incoming
version, mint and push a fresh result version, and record the chi's region
in `memRegs`. -/
def renameChiStep (acc : SSAState × List MR) (p : NodeId × MR) :
    Except String (SSAState × List MR) := do
  let v ← getTopStackVer acc.1 p.2
  let s := updateNode acc.1 p.1 (fun n => { n with opVer := some v })
  let (res, s) ← newSSAName s p.2
  pure (updateNode s p.1 (fun n => { n with resVer := some res }), acc.2 ++ [p.2])

/-- Modelled from the spec: `RenameChiSet` — every chi of the set records the
current top-of-stack as its incoming version, then mints and pushes a fresh
version as its result; the chi's region is recorded in `memRegs` for the
popping on dominator-subtree exit. -/
def RenameChiSet (s : SSAState) (chis : List (NodeId × MR)) (memRegs : List MR) :
    Except String (SSAState × List MR) :=
  chis.foldlM renameChiStep (s, memRegs)

/-- One phi result: mint and push a fresh version for the phi's result and
record its region in `memRegs`. -/
def renamePhiResStep (acc : SSAState × List MR) (p : NodeId × MR) :
    Except String (SSAState × List MR) := do
  let (res, s) ← newSSAName acc.1 p.2
  pure (updateNode s p.1 (fun n => { n with resVer := some res }), acc.2 ++ [p.2])

/-- Modelled from the spec: `RenamePhiRes` — every phi of the set has a fresh
version minted (and pushed) for its result; its region is recorded in
`memRegs`. -/
def RenamePhiRes (s : SSAState) (phis : List (NodeId × MR)) (memRegs : List MR) :
    Except String (SSAState × List MR) :=
  phis.foldlM renamePhiResStep (s, memRegs)

/-- One phi operand: fill the slot at position `pos` with the region's
top-of-stack version. -/
def renamePhiOpStep (pos : Nat) (s : SSAState) (p : NodeId × MR) :
    Except String SSAState := do
  let v ← getTopStackVer s p.2
  pure (updateNode s p.1 (fun n => { n with phiOps := setAssoc pos v n.phiOps }))

/-- Modelled from the spec: `RenamePhiOps` — every phi of the set has its
operand slot at position `pos` filled with its region's top-of-stack
version. -/
def RenamePhiOps (s : SSAState) (phis : List (NodeId × MR)) (pos : Nat) :
    Except String SSAState :=
  phis.foldlM (renamePhiOpStep pos) s

/-- Position of `bb` in a predecessor list. -/
def predPosAux (bb : BB) : List BB → Option Nat
  | [] => none
  | b :: rest => if b = bb then some 0 else (predPosAux bb rest).map (· + 1)

/-- Modelled from the spec: `getBBPredecessorPos` — the position of `bb`
among `succ`'s predecessors; asserts that `bb` is a predecessor. -/
def getBBPredecessorPos (f : Func) (bb succ : BB) : Except String Nat :=
  match predPosAux bb (f.preds succ) with
  | some pos => .ok pos
  | none => .error "did not find predecessor block position"

/-- The per-PAG-edge step of renaming an instruction: loads rename their mu
set, stores rename their chi set. -/
def renameInstEdge (bb : BB) (instIdx : Nat) (acc : SSAState × List MR) (e : Nat × PAGEdge) :
    Except String (SSAState × List MR) :=
  match e.2 with
  | .load _ => do
      let s ← RenameMuSet acc.1 (muNodesOfLoad acc.1 bb instIdx e.1)
      pure (s, acc.2)
  | .store _ => RenameChiSet acc.1 (chiNodesOfStore acc.1 bb instIdx e.1) acc.2

/-- The per-instruction step of `SSARenameBB`: PAG edges first, then either
the call site's mu/chi sets or — for a return — the function's return mu
set. -/
def renameInst (bb : BB) (acc : SSAState × List MR) (i : Nat × Inst) :
    Except String (SSAState × List MR) := do
  let acc ← (i.2.pagEdges.enum).foldlM (renameInstEdge bb i.1) acc
  if i.2.isCall then do
    let s ← RenameMuSet acc.1 (muNodesOfCall acc.1 bb i.1)
    RenameChiSet s (chiNodesOfCall s bb i.1) acc.2
  else if i.2.isRet then do
    let s ← RenameMuSet acc.1 (retMuNodes acc.1)
    pure (s, acc.2)
  else
    pure acc

/-- The block-local part of `SSARenameBB`: rename the block's phi results,
then walk its instructions in program order. -/
def renameLocal (f : Func) (bb : BB) (s : SSAState) :
    Except String (SSAState × List MR) := do
  let acc ← RenamePhiRes s (phiNodesAt s bb) []
  ((f.insts bb).enum).foldlM (renameInst bb) acc

/-- The successor phase of `SSARenameBB`: for every control-flow successor,
fill this block's operand slot (this block's position among the successor's
predecessors) in each of the successor's phi nodes with the current
top-of-stack version. -/
def renameSuccOps (f : Func) (bb : BB) (s : SSAState) : Except String SSAState :=
  (f.succs bb).foldlM
    (fun s succ => do
      let pos ← getBBPredecessorPos f bb succ
      RenamePhiOps s (phiNodesAt s succ) pos)
    s

/-- The final loop of `SSARenameBB`: pop one stack entry for each region
recorded in `memRegs`, last recorded first. -/
def popStacks (memRegs : List MR) (s : SSAState) : SSAState :=
  memRegs.reverse.foldl
    (fun s mr =>
      { s with mr2VerStackMap := setAssoc mr (stackOf s mr).tail s.mr2VerStackMap })
    s

/-- `MemSSA::SSARenameBB`: rename the block's phi results and
instructions, fill the successor phi operands, recurse into the block's
dominator-tree children when the block has a dominator-tree node (a missing
node skips the recursion), and pop the versions this block pushed.  Fuel
bounds the recursion depth; exhausting it is a model artifact, not a code
path. -/
def SSARenameBB (f : Func) : Nat → BB → SSAState → Except String SSAState
  | 0, _, _ => .error "out of fuel"
  | fuel + 1, bb, s => do
    let acc ← renameLocal f bb s
    let s ← renameSuccOps f bb acc.1
    let s ←
      match f.domChildren bb with
      | none => pure s
      | some children => children.foldlM (fun s c => SSARenameBB f fuel c s) s
    pure (popStacks acc.2 s)

/-- `MemSSA::SSARename`: start renaming at the function's entry block. -/
def SSARename (f : Func) (fuel : Nat) (s : SSAState) : Except String SSAState :=
  SSARenameBB f fuel f.entry s

/-- `MemSSA::setCurrentDFDT`: clear the used-region set and the
region-to-defining-blocks map. -/
def setCurrentDFDT (s : SSAState) : SSAState :=
  { s with usedRegs := [], reg2BBMap := [] }

/-- `MemSSA::buildMemSSA`: assert the function is not an external call,
reset the per-function maps, then create mu/chi nodes, insert phis and
rename. -/
def buildMemSSA (f : Func) (renameFuel : Nat) (s : SSAState) : Except String SSAState :=
  if f.isExt then .error "we do not build memory ssa for external functions"
  else do
    let s ← createMUCHI f (setCurrentDFDT s)
    match insertPHI f s with
    | none => .error "insertPHI ran out of fuel"
    | some s => SSARename f renameFuel s

/-! ### Derived notions used by the statements -/

/-- The nodes the entry loop of `createMUCHI` appends for one used region:
its entry chi (incoming version 0, result version 1) and, when the function
may return, its return mu. -/
def entryNodes (f : Func) (mr : MR) : List Node :=
  [{ id := .entryChi mr, opVer := some ⟨mr, 0⟩, resVer := some ⟨mr, 1⟩ }] ++
    (if f.doesNotRet = false then [{ id := .retMu mr }] else [])

/-- Whether a node identity is one of the instruction-attached kinds
created by the block walk of `createMUCHI` (as opposed to the entry chis,
return mus and phis created later). -/
def isInstrNodeId : NodeId → Bool
  | .loadMu _ _ _ _ => true
  | .storeChi _ _ _ _ => true
  | .callMu _ _ _ => true
  | .callChi _ _ _ => true
  | _ => false

/-- What the block walk of `createMUCHI` can change: it appends only
instruction-attached nodes and touches neither the version counters, the
version stacks nor the warnings; it keeps the used-region set duplicate
free. -/
def PhaseAInv (s sA : SSAState) : Prop :=
  sA.mr2CounterMap = s.mr2CounterMap ∧
  sA.mr2VerStackMap = s.mr2VerStackMap ∧
  sA.warnings = s.warnings ∧
  (∃ tail, sA.nodes = s.nodes ++ tail ∧ ∀ n ∈ tail, isInstrNodeId n.id = true) ∧
  (s.usedRegs.Nodup → sA.usedRegs.Nodup)

/-- Number of phi nodes for `(bb, mr)` in the state. -/
def phiCount (s : SSAState) (bb : BB) (mr : MR) : Nat :=
  s.nodes.countP (fun n => n.id = .phi bb mr)

/-- The locally-defining blocks recorded for a region. -/
def defBlocks (s : SSAState) (mr : MR) : List BB :=
  (getAssoc mr s.reg2BBMap).getD []

/-- The dominance-frontier set of a block; a map miss contributes the empty
set (the code skips such a block). -/
def dfSet (f : Func) (bb : BB) : List BB :=
  (dfLookup f bb).getD []

/-- The iterated-dominance-frontier closure of a set of defining blocks:
everything reachable by repeatedly taking dominance frontiers, starting
from the frontiers of the defining blocks. -/
inductive InIDF (f : Func) (defs : List BB) : BB → Prop where
  | base {b c : BB} : b ∈ defs → c ∈ dfSet f b → InIDF f defs c
  | step {b c : BB} : InIDF f defs b → c ∈ dfSet f b → InIDF f defs c

/-- The frontier blocks that could still be pushed for a region: blocks of
the frontier universe whose `(block, region)` pair is not yet in the dedup
map.  Bounds the worklist loop. -/
def freshCard (f : Func) (mr : MR) (dedup : List (BB × MR)) : Nat :=
  ((dfUniverse f).toFinset.filter (fun b => (b, mr) ∉ dedup)).card

/-- `s2`'s version stacks extend `s`'s by one entry per occurrence of the
region in `regs` (the pushes recorded for the popping phase). -/
def stackPush (s s2 : SSAState) (regs : List MR) : Prop :=
  ∀ mr, ∃ pre : List MRVer,
    stackOf s2 mr = pre ++ stackOf s mr ∧ pre.length = regs.count mr

/-- A renaming phase that pushes nothing: stacks, used regions and the
defining-block map are unchanged. -/
def renEq (a b : SSAState) : Prop :=
  (∀ mr, stackOf b mr = stackOf a mr) ∧ b.usedRegs = a.usedRegs ∧ b.reg2BBMap = a.reg2BBMap

/-- A renaming phase on a (state, memRegs) accumulator: it appends some
regions to `memRegs` and pushes exactly one stack entry per appended
occurrence. -/
def renDelta (a b : SSAState × List MR) : Prop :=
  (∃ added, b.2 = a.2 ++ added ∧ stackPush a.1 b.1 added) ∧
  b.1.usedRegs = a.1.usedRegs ∧ b.1.reg2BBMap = a.1.reg2BBMap

/-! ### Concrete inputs used by witnesses and counterexamples -/

/-- The all-empty initial state of a fresh session. -/
def state0 : SSAState := {}

/-- Straight-line function: block 0 stores region 0, block 1 loads it and
returns. -/
def funLine : Func where
  entry := 0
  reachable := [0, 1]
  insts := fun bb =>
    if bb = 0 then [{ pagEdges := [.store [0]] }]
    else if bb = 1 then [{ pagEdges := [.load [0]] }, { isRet := true }]
    else []
  succs := fun bb => if bb = 0 then [1] else []
  preds := fun bb => if bb = 1 then [0] else []
  domChildren := fun bb => if bb = 0 then some [1] else if bb = 1 then some [] else none
  df := [(0, []), (1, [])]
  isExt := false
  doesNotRet := false

/-- Diamond: block 0 branches to 1 and 2 which join at 3; region 0 is
stored in block 1 only and loaded in block 3. -/
def funDiamond : Func where
  entry := 0
  reachable := [0, 1, 2, 3]
  insts := fun bb =>
    if bb = 1 then [{ pagEdges := [.store [0]] }]
    else if bb = 3 then [{ pagEdges := [.load [0]] }, { isRet := true }]
    else []
  succs := fun bb =>
    if bb = 0 then [1, 2] else if bb = 1 then [3] else if bb = 2 then [3] else []
  preds := fun bb =>
    if bb = 3 then [1, 2] else if bb = 1 then [0] else if bb = 2 then [0] else []
  domChildren := fun bb => if bb = 0 then some [1, 2, 3] else if bb < 4 then some [] else none
  df := [(0, []), (1, [3]), (2, [3]), (3, [])]
  isExt := false
  doesNotRet := false

/-- One block storing region 0, absent from the dominance-frontier map. -/
def funDfMiss : Func where
  entry := 0
  reachable := [0]
  insts := fun bb => if bb = 0 then [{ pagEdges := [.store [0]] }, { isRet := true }] else []
  succs := fun _ => []
  preds := fun _ => []
  domChildren := fun bb => if bb = 0 then some [] else none
  df := []
  isExt := false
  doesNotRet := false

/-- One block storing region 0, with no block having a dominator-tree
node. -/
def funNoDomNode : Func where
  entry := 0
  reachable := [0]
  insts := fun bb => if bb = 0 then [{ pagEdges := [.store [0]] }, { isRet := true }] else []
  succs := fun _ => []
  preds := fun _ => []
  domChildren := fun _ => none
  df := [(0, [])]
  isExt := false
  doesNotRet := false

/-- The state `createMUCHI` produces for `funLine` from a fresh session. -/
def muchiLine : SSAState where
  usedRegs := [0]
  reg2BBMap := [(0, [0])]
  mr2CounterMap := [(0, 2)]
  mr2VerStackMap := [(0, [⟨0, 1⟩, ⟨0, 0⟩])]
  nodes := [{ id := .storeChi 0 0 0 0 }, { id := .loadMu 1 0 0 0 },
            { id := .entryChi 0, opVer := some ⟨0, 0⟩, resVer := some ⟨0, 1⟩ },
            { id := .retMu 0 }]
  warnings := []

/-- The state `buildMemSSA` produces for `funLine` from a fresh session. -/
def builtLine : SSAState where
  usedRegs := [0]
  reg2BBMap := [(0, [0])]
  mr2CounterMap := [(0, 3)]
  mr2VerStackMap := [(0, [⟨0, 1⟩, ⟨0, 0⟩])]
  nodes := [{ id := .storeChi 0 0 0 0, opVer := some ⟨0, 1⟩, resVer := some ⟨0, 2⟩ },
            { id := .loadMu 1 0 0 0, opVer := some ⟨0, 2⟩ },
            { id := .entryChi 0, opVer := some ⟨0, 0⟩, resVer := some ⟨0, 1⟩ },
            { id := .retMu 0, opVer := some ⟨0, 2⟩ }]
  warnings := []

/-- The state `buildMemSSA` produces for `funNoDomNode` from a fresh
session: renaming succeeds although no block has a dominator-tree node. -/
def builtNoDomNode : SSAState where
  usedRegs := [0]
  reg2BBMap := [(0, [0])]
  mr2CounterMap := [(0, 3)]
  mr2VerStackMap := [(0, [⟨0, 1⟩, ⟨0, 0⟩])]
  nodes := [{ id := .storeChi 0 0 0 0, opVer := some ⟨0, 1⟩, resVer := some ⟨0, 2⟩ },
            { id := .entryChi 0, opVer := some ⟨0, 0⟩, resVer := some ⟨0, 1⟩ },
            { id := .retMu 0, opVer := some ⟨0, 2⟩ }]
  warnings := []

/-- The state `createMUCHI` produces for `funDiamond` from a fresh session. -/
def muchiDiamond : SSAState where
  usedRegs := [0]
  reg2BBMap := [(0, [1])]
  mr2CounterMap := [(0, 2)]
  mr2VerStackMap := [(0, [⟨0, 1⟩, ⟨0, 0⟩])]
  nodes := [{ id := .storeChi 1 0 0 0 }, { id := .loadMu 3 0 0 0 },
            { id := .entryChi 0, opVer := some ⟨0, 0⟩, resVer := some ⟨0, 1⟩ },
            { id := .retMu 0 }]
  warnings := []

/-- The state `insertPHI` produces for `funDiamond` after `createMUCHI`:
one phi node at the join block 3. -/
def phiDiamond : SSAState where
  usedRegs := [0]
  reg2BBMap := [(0, [1])]
  mr2CounterMap := [(0, 2)]
  mr2VerStackMap := [(0, [⟨0, 1⟩, ⟨0, 0⟩])]
  nodes := [{ id := .storeChi 1 0 0 0 }, { id := .loadMu 3 0 0 0 },
            { id := .entryChi 0, opVer := some ⟨0, 0⟩, resVer := some ⟨0, 1⟩ },
            { id := .retMu 0 }, { id := .phi 3 0 }]
  warnings := []

/-- The state `RenamePhiRes` produces from `phiDiamond` for the join
block's phi set: the phi's result minted as version 2 and pushed. -/
def phiResDiamond : SSAState where
  usedRegs := [0]
  reg2BBMap := [(0, [1])]
  mr2CounterMap := [(0, 3)]
  mr2VerStackMap := [(0, [⟨0, 2⟩, ⟨0, 1⟩, ⟨0, 0⟩])]
  nodes := [{ id := .storeChi 1 0 0 0 }, { id := .loadMu 3 0 0 0 },
            { id := .entryChi 0, opVer := some ⟨0, 0⟩, resVer := some ⟨0, 1⟩ },
            { id := .retMu 0 }, { id := .phi 3 0, resVer := some ⟨0, 2⟩ }]
  warnings := []

/-- The state the successor phase of block 1 of `funDiamond` produces from
`phiDiamond`: the join phi's operand slot 0 filled with the top of stack. -/
def succOpsDiamond : SSAState where
  usedRegs := [0]
  reg2BBMap := [(0, [1])]
  mr2CounterMap := [(0, 2)]
  mr2VerStackMap := [(0, [⟨0, 1⟩, ⟨0, 0⟩])]
  nodes := [{ id := .storeChi 1 0 0 0 }, { id := .loadMu 3 0 0 0 },
            { id := .entryChi 0, opVer := some ⟨0, 0⟩, resVer := some ⟨0, 1⟩ },
            { id := .retMu 0 }, { id := .phi 3 0, phiOps := [(0, ⟨0, 1⟩)] }]
  warnings := []

/-- An external (opaque) function declaration. -/
def funExternal : Func where
  entry := 0
  reachable := []
  insts := fun _ => []
  succs := fun _ => []
  preds := fun _ => []
  domChildren := fun _ => none
  df := []
  isExt := true
  doesNotRet := false

/-! ## Theorems -/

theorem getAssoc_setAssoc_same {β : Type} (k : Nat) (v : β) (l : List (Nat × β)) :
    getAssoc k (setAssoc k v l) = some v := by
  induction l with
  | nil => simp [getAssoc, setAssoc]
  | cons hd tl ih =>
      obtain ⟨k1, v1⟩ := hd
      by_cases h : k1 = k
      · simp [getAssoc, setAssoc, h]
      · simp [getAssoc, setAssoc, h, ih]

theorem getAssoc_setAssoc_other {β : Type} (k j : Nat) (v : β) (l : List (Nat × β))
    (hne : k ≠ j) : getAssoc j (setAssoc k v l) = getAssoc j l := by
  induction l with
  | nil => simp [getAssoc, setAssoc, hne]
  | cons hd tl ih =>
      obtain ⟨k1, v1⟩ := hd
      by_cases h : k1 = k
      · subst h
        simp [getAssoc, setAssoc, hne]
      · by_cases h2 : k1 = j
        · simp [getAssoc, setAssoc, h, h2, Ne.symm hne]
        · simp [getAssoc, setAssoc, h, h2, ih]

theorem newSSAName_ok_iff (s : SSAState) (mr : MR) :
    (∃ v s2, newSSAName s mr = .ok (v, s2)) ↔
      (getAssoc mr s.mr2CounterMap).isSome ∧
        (getAssoc mr s.mr2VerStackMap).isSome := by
  unfold newSSAName
  cases hc : getAssoc mr s.mr2CounterMap with
  | none => simp
  | some c =>
    cases hs : getAssoc mr s.mr2VerStackMap with
    | none => simp
    | some stk => simp

theorem setAssoc_setAssoc_same {β : Type} (k : Nat) (v1 v2 : β) (l : List (Nat × β)) :
    setAssoc k v2 (setAssoc k v1 l) = setAssoc k v2 l := by
  induction l with
  | nil => simp [setAssoc]
  | cons hd tl ih =>
      obtain ⟨k1, w⟩ := hd
      by_cases h : k1 = k
      · simp [setAssoc, h]
      · simp [setAssoc, h, ih]

theorem createEntryForMR_eq (f : Func) (s : SSAState) (mr : MR) :
    createEntryForMR f s mr =
      .ok { s with
        mr2CounterMap := setAssoc mr 2 s.mr2CounterMap
        mr2VerStackMap := setAssoc mr [⟨mr, 1⟩, ⟨mr, 0⟩] s.mr2VerStackMap
        nodes := s.nodes ++ entryNodes f mr } := by
  unfold createEntryForMR newSSAName
  cases h : f.doesNotRet <;>
    simp [h, Bind.bind, Functor.map, Except.bind, Except.map, Pure.pure, Except.pure,
      getAssoc_setAssoc_same, setAssoc_setAssoc_same, entryNodes, List.append_assoc]

/-- The entry-chi/return-mu loop of `createMUCHI` over a region list:
it always succeeds, appends exactly the entry nodes of each region, leaves
every other part of the state unchanged, and leaves every listed region
with counter 2 and stack `[version 1, version 0]`. -/
theorem entryLoop_spec (f : Func) (regs : List MR) (s : SSAState) :
    ∃ s2, regs.foldlM (createEntryForMR f) s = .ok s2 ∧
      s2.usedRegs = s.usedRegs ∧
      s2.reg2BBMap = s.reg2BBMap ∧
      s2.warnings = s.warnings ∧
      s2.nodes = s.nodes ++ regs.flatMap (entryNodes f) ∧
      (∀ mr, mr ∉ regs →
        getAssoc mr s2.mr2CounterMap = getAssoc mr s.mr2CounterMap ∧
        getAssoc mr s2.mr2VerStackMap = getAssoc mr s.mr2VerStackMap) ∧
      (∀ mr, mr ∈ regs →
        getAssoc mr s2.mr2CounterMap = some 2 ∧
        getAssoc mr s2.mr2VerStackMap = some [⟨mr, 1⟩, ⟨mr, 0⟩]) := by
  induction regs generalizing s with
  | nil =>
      exact ⟨s, rfl, rfl, rfl, rfl, by simp, fun mr _ => ⟨rfl, rfl⟩, fun mr h => absurd h (by simp)⟩
  | cons mr rest ih =>
      set s1 : SSAState :=
        { s with
          mr2CounterMap := setAssoc mr 2 s.mr2CounterMap
          mr2VerStackMap := setAssoc mr [⟨mr, 1⟩, ⟨mr, 0⟩] s.mr2VerStackMap
          nodes := s.nodes ++ entryNodes f mr } with hs1
      obtain ⟨s2, hfold, hused, hreg, hwarn, hnodes, hout, hin⟩ := ih s1
      refine ⟨s2, ?_, ?_, ?_, ?_, ?_, ?_, ?_⟩
      · rw [List.foldlM_cons, createEntryForMR_eq, ← hs1]
        exact hfold
      · rw [hused]
      · rw [hreg]
      · rw [hwarn]
      · rw [hnodes, hs1]
        simp [List.flatMap_cons, List.append_assoc]
      · intro mr2 hmr2
        have h1 : mr2 ≠ mr := fun h => hmr2 (h ▸ List.mem_cons_self mr rest)
        have h2 : mr2 ∉ rest := fun h => hmr2 (List.mem_cons_of_mem _ h)
        obtain ⟨hc, hv⟩ := hout mr2 h2
        constructor
        · rw [hc, hs1]
          exact getAssoc_setAssoc_other mr mr2 _ _ (Ne.symm h1)
        · rw [hv, hs1]
          exact getAssoc_setAssoc_other mr mr2 _ _ (Ne.symm h1)
      · intro mr2 hmr2
        rcases List.mem_cons.mp hmr2 with heq | hmem
        · subst heq
          by_cases hr : mr2 ∈ rest
          · exact hin mr2 hr
          · obtain ⟨hc, hv⟩ := hout mr2 hr
            constructor
            · rw [hc, hs1]
              exact getAssoc_setAssoc_same mr2 _ _
            · rw [hv, hs1]
              exact getAssoc_setAssoc_same mr2 _ _
        · exact hin mr2 hmem

theorem phaseAInv_refl (s : SSAState) : PhaseAInv s s :=
  ⟨rfl, rfl, rfl, ⟨[], by simp, by simp⟩, id⟩

theorem phaseAInv_trans {s t u : SSAState} (h1 : PhaseAInv s t) (h2 : PhaseAInv t u) :
    PhaseAInv s u := by
  obtain ⟨c1, v1, w1, ⟨t1, n1, i1⟩, d1⟩ := h1
  obtain ⟨c2, v2, w2, ⟨t2, n2, i2⟩, d2⟩ := h2
  refine ⟨c2.trans c1, v2.trans v1, w2.trans w1, ⟨t1 ++ t2, ?_, ?_⟩, fun h => d2 (d1 h)⟩
  · rw [n2, n1, List.append_assoc]
  · intro n hn
    rcases List.mem_append.mp hn with h | h
    · exact i1 n h
    · exact i2 n h

theorem foldl_phaseAInv {α : Type} (g : SSAState → α → SSAState)
    (hg : ∀ s a, PhaseAInv s (g s a)) :
    ∀ (l : List α) (s : SSAState), PhaseAInv s (l.foldl g s) := by
  intro l
  induction l with
  | nil => intro s; exact phaseAInv_refl s
  | cons a l ih => intro s; exact phaseAInv_trans (hg s a) (ih (g s a))

theorem phaseAInv_insertUsedReg (s : SSAState) (mr : MR) :
    PhaseAInv s (insertUsedReg s mr) := by
  unfold insertUsedReg
  by_cases h : mr ∈ s.usedRegs
  · simp [h]
    exact phaseAInv_refl s
  · simp [h]
    refine ⟨rfl, rfl, rfl, ⟨[], by simp, by simp⟩, fun hnd => ?_⟩
    simp [List.nodup_append, hnd, h]

theorem phaseAInv_insertRegBB (s : SSAState) (mr : MR) (bb : BB) :
    PhaseAInv s (insertRegBB s mr bb) := by
  unfold insertRegBB
  by_cases h : bb ∈ (getAssoc mr s.reg2BBMap).getD []
  · simp [h]
    exact phaseAInv_refl s
  · simp [h]
    exact ⟨rfl, rfl, rfl, ⟨[], by simp, by simp⟩, id⟩

theorem phaseAInv_addNode (s : SSAState) (nid : NodeId) (h : isInstrNodeId nid = true) :
    PhaseAInv s (addNode s nid) := by
  refine ⟨rfl, rfl, rfl, ⟨[{ id := nid }], rfl, ?_⟩, fun hnd => hnd⟩
  intro n hn
  have := List.mem_singleton.mp hn
  rw [this]
  exact h

theorem phaseAInv_AddLoadMU (s : SSAState) (bb : BB) (i e : Nat) (mrs : List MR) :
    PhaseAInv s (AddLoadMU s bb i e mrs) := by
  apply foldl_phaseAInv
  intro s mr
  exact phaseAInv_trans (phaseAInv_addNode s _ (by rfl)) (phaseAInv_insertUsedReg _ mr)

theorem phaseAInv_AddStoreCHI (s : SSAState) (bb : BB) (i e : Nat) (mrs : List MR) :
    PhaseAInv s (AddStoreCHI s bb i e mrs) := by
  apply foldl_phaseAInv
  intro s mr
  exact phaseAInv_trans (phaseAInv_addNode s _ (by rfl))
    (phaseAInv_trans (phaseAInv_insertUsedReg _ mr) (phaseAInv_insertRegBB _ mr bb))

theorem phaseAInv_AddCallSiteMU (s : SSAState) (bb : BB) (i : Nat) (mrs : List MR) :
    PhaseAInv s (AddCallSiteMU s bb i mrs) := by
  apply foldl_phaseAInv
  intro s mr
  exact phaseAInv_trans (phaseAInv_addNode s _ (by rfl)) (phaseAInv_insertUsedReg _ mr)

theorem phaseAInv_AddCallSiteCHI (s : SSAState) (bb : BB) (i : Nat) (mrs : List MR) :
    PhaseAInv s (AddCallSiteCHI s bb i mrs) := by
  apply foldl_phaseAInv
  intro s mr
  exact phaseAInv_trans (phaseAInv_addNode s _ (by rfl))
    (phaseAInv_trans (phaseAInv_insertUsedReg _ mr) (phaseAInv_insertRegBB _ mr bb))

theorem phaseAInv_muchiBB (f : Func) (s : SSAState) (bb : BB) :
    PhaseAInv s (muchiBB f s bb) := by
  apply foldl_phaseAInv
  intro s i
  unfold muchiInst
  have hedges : PhaseAInv s ((i.2.pagEdges.enum).foldl (muchiEdge bb i.1) s) := by
    apply foldl_phaseAInv
    intro s e
    unfold muchiEdge
    cases e.2 with
    | load mrs => exact phaseAInv_AddLoadMU s bb i.1 e.1 mrs
    | store mrs => exact phaseAInv_AddStoreCHI s bb i.1 e.1 mrs
  by_cases h : i.2.isCall
  · simp only [h, if_true]
    exact phaseAInv_trans hedges
      (phaseAInv_trans (phaseAInv_AddCallSiteMU _ bb i.1 _) (phaseAInv_AddCallSiteCHI _ bb i.1 _))
  · simp only [h, if_false]
    exact hedges

theorem phaseAInv_walk (f : Func) (s : SSAState) :
    PhaseAInv s (f.reachable.foldl (muchiBB f) s) :=
  foldl_phaseAInv (muchiBB f) (phaseAInv_muchiBB f) f.reachable s

/-- `createMUCHI` always succeeds; it preserves the warnings, keeps the
used-region set duplicate free, appends only instruction-attached nodes
followed by each used region's entry nodes, and leaves every used region
with counter 2 and version stack `[version 1, version 0]`. -/
theorem createMUCHI_spec (f : Func) (s : SSAState) :
    ∃ s2, createMUCHI f s = .ok s2 ∧
      s2.warnings = s.warnings ∧
      (s.usedRegs.Nodup → s2.usedRegs.Nodup) ∧
      (∃ tail, s2.nodes = (s.nodes ++ tail) ++ s2.usedRegs.flatMap (entryNodes f) ∧
        ∀ n ∈ tail, isInstrNodeId n.id = true) ∧
      (∀ mr ∈ s2.usedRegs,
        getAssoc mr s2.mr2CounterMap = some 2 ∧
        getAssoc mr s2.mr2VerStackMap = some [⟨mr, 1⟩, ⟨mr, 0⟩]) := by
  obtain ⟨hc, hv, hw, ⟨tail, hn, hi⟩, hd⟩ := phaseAInv_walk f s
  set sA := f.reachable.foldl (muchiBB f) s with hsA
  obtain ⟨s2, hfold, hused, hreg, hwarn, hnodes, hout, hin⟩ := entryLoop_spec f sA.usedRegs sA
  refine ⟨s2, ?_, ?_, ?_, ⟨tail, ?_, hi⟩, ?_⟩
  · unfold createMUCHI
    rw [← hsA]
    exact hfold
  · rw [hwarn, hw]
  · intro hnd
    rw [hused]
    exact hd hnd
  · rw [hnodes, hn, hused]
  · intro mr hmr
    rw [hused] at hmr
    exact hin mr hmr

theorem newSSAName_version (s : SSAState) (mr : MR) (c : Nat) (stk : List MRVer)
    (hc : getAssoc mr s.mr2CounterMap = some c)
    (hs : getAssoc mr s.mr2VerStackMap = some stk) :
    newSSAName s mr =
      .ok (⟨mr, c⟩,
        { s with
          mr2CounterMap := setAssoc mr (c + 1) s.mr2CounterMap
          mr2VerStackMap := setAssoc mr ((⟨mr, c⟩ : MRVer) :: stk) s.mr2VerStackMap }) := by
  unfold newSSAName
  rw [hc, hs]

theorem countP_of_instr_tail (tail : List Node) (p : Node → Bool)
    (hp : ∀ n, p n = true → isInstrNodeId n.id = false)
    (hi : ∀ n ∈ tail, isInstrNodeId n.id = true) :
    tail.countP p = 0 := by
  induction tail with
  | nil => simp
  | cons n rest ih =>
      have h1 : p n = false := by
        cases hpn : p n
        · rfl
        · have h2 := hp n hpn
          rw [hi n (List.mem_cons_self n rest)] at h2
          cases h2
      have h2 := ih (fun m hm => hi m (List.mem_cons_of_mem _ hm))
      simp [List.countP_cons, h1, h2]

theorem countP_entryChi_entryNodes (f : Func) (r mr : MR) :
    (entryNodes f r).countP (fun n => n.id = .entryChi mr) = if r = mr then 1 else 0 := by
  cases hdr : f.doesNotRet <;> by_cases h : r = mr <;>
    simp [entryNodes, hdr, h, List.countP_cons]

theorem countP_retMu_entryNodes (f : Func) (r mr : MR) :
    (entryNodes f r).countP (fun n => n.id = .retMu mr) =
      if r = mr ∧ f.doesNotRet = false then 1 else 0 := by
  cases hdr : f.doesNotRet <;> by_cases h : r = mr <;>
    simp [entryNodes, hdr, h, List.countP_cons]

theorem countP_entry_flatMap (f : Func) (mr : MR) :
    ∀ regs : List MR, regs.Nodup →
      ((regs.flatMap (entryNodes f)).countP (fun n => n.id = .entryChi mr) =
        if mr ∈ regs then 1 else 0) ∧
      ((regs.flatMap (entryNodes f)).countP (fun n => n.id = .retMu mr) =
        if mr ∈ regs ∧ f.doesNotRet = false then 1 else 0) := by
  intro regs
  induction regs with
  | nil => intro _; simp
  | cons r rest ih =>
      intro hnd
      rw [List.nodup_cons] at hnd
      obtain ⟨hr, hnd⟩ := hnd
      obtain ⟨ih1, ih2⟩ := ih hnd
      rw [List.flatMap_cons, List.countP_append, List.countP_append, ih1, ih2,
        countP_entryChi_entryNodes, countP_retMu_entryNodes]
      constructor
      · by_cases h : r = mr
        · subst h
          simp [hr]
        · by_cases h2 : mr ∈ rest <;> simp [h, h2, Ne.symm h]
      · by_cases h : r = mr
        · subst h
          cases hdr : f.doesNotRet <;> simp [hr, hdr]
        · by_cases h2 : mr ∈ rest <;> cases hdr : f.doesNotRet <;>
            simp [h, h2, hdr, Ne.symm h]

/-- C3: for every used region, `createMUCHI` leaves an entry chi whose
incoming version is 0 and whose result version is 1, with the region's
counter at 2 and its stack holding versions 1 and 0; and `newSSAName` mints
exactly the current counter value and bumps the counter by one, so
per-region versions increase strictly by 1 per call and are never reused. -/
theorem muchi_entry_versions_and_fresh_names :
    (∀ (f : Func) (s0 s2 : SSAState), createMUCHI f s0 = .ok s2 →
      ∀ mr ∈ s2.usedRegs,
        ({ id := .entryChi mr, opVer := some ⟨mr, 0⟩, resVer := some ⟨mr, 1⟩ } : Node) ∈ s2.nodes ∧
        getAssoc mr s2.mr2CounterMap = some 2 ∧
        getAssoc mr s2.mr2VerStackMap = some [⟨mr, 1⟩, ⟨mr, 0⟩]) ∧
    (∀ (s : SSAState) (mr : MR) (v : MRVer) (s2 : SSAState),
      newSSAName s mr = .ok (v, s2) →
        getAssoc mr s.mr2CounterMap = some v.version ∧
        getAssoc mr s2.mr2CounterMap = some (v.version + 1)) := by
  constructor
  · intro f s0 s2 hok mr hmr
    obtain ⟨s3, hok3, _, _, ⟨tail, hnodes, _⟩, hregs⟩ := createMUCHI_spec f s0
    rw [hok] at hok3
    injection hok3 with heq
    subst heq
    refine ⟨?_, hregs mr hmr⟩
    rw [hnodes]
    refine List.mem_append.mpr (Or.inr ?_)
    exact List.mem_flatMap.mpr ⟨mr, hmr, by simp [entryNodes]⟩
  · intro s mr v s2 hok
    unfold newSSAName at hok
    cases hc : getAssoc mr s.mr2CounterMap with
    | none => rw [hc] at hok; cases hok
    | some c =>
        rw [hc] at hok
        cases hs : getAssoc mr s.mr2VerStackMap with
        | none => rw [hs] at hok; cases hok
        | some stk =>
            rw [hs] at hok
            injection hok with heq
            rw [Prod.mk.injEq] at heq
            obtain ⟨hv, hst⟩ := heq
            subst hst
            subst hv
            exact ⟨rfl, by simp [getAssoc_setAssoc_same]⟩

theorem muchi_entry_versions_and_fresh_names_witness :
    ({ id := .entryChi 0, opVer := some ⟨0, 0⟩, resVer := some ⟨0, 1⟩ } : Node) ∈ muchiLine.nodes ∧
    getAssoc 0 muchiLine.mr2CounterMap = some 2 ∧
    getAssoc 0 muchiLine.mr2VerStackMap = some [⟨0, 1⟩, ⟨0, 0⟩] :=
  muchi_entry_versions_and_fresh_names.1 funLine state0 muchiLine (by rfl) 0 (by decide)

/-- C4: starting from a fresh session, `createMUCHI` creates exactly one
entry chi per used region (none for unused regions) and exactly one return
mu per used region precisely when the function may reach a return. -/
theorem muchi_entry_ret_counts (f : Func) (s0 s2 : SSAState)
    (hn0 : s0.nodes = []) (hnd : s0.usedRegs.Nodup)
    (hok : createMUCHI f s0 = .ok s2) (mr : MR) :
    s2.nodes.countP (fun n => n.id = .entryChi mr) =
      (if mr ∈ s2.usedRegs then 1 else 0) ∧
    s2.nodes.countP (fun n => n.id = .retMu mr) =
      (if mr ∈ s2.usedRegs ∧ f.doesNotRet = false then 1 else 0) := by
  obtain ⟨s3, hok3, _, hndup, ⟨tail, hnodes, hinstr⟩, _⟩ := createMUCHI_spec f s0
  rw [hok] at hok3
  injection hok3 with heq
  subst heq
  have hnd2 : s2.usedRegs.Nodup := hndup hnd
  obtain ⟨hcnt1, hcnt2⟩ := countP_entry_flatMap f mr s2.usedRegs hnd2
  have htail1 : tail.countP (fun n => n.id = .entryChi mr) = 0 := by
    apply countP_of_instr_tail tail _ _ hinstr
    intro n hn
    have : n.id = NodeId.entryChi mr := by
      simpa using hn
    rw [this]
    rfl
  have htail2 : tail.countP (fun n => n.id = .retMu mr) = 0 := by
    apply countP_of_instr_tail tail _ _ hinstr
    intro n hn
    have : n.id = NodeId.retMu mr := by
      simpa using hn
    rw [this]
    rfl
  rw [hnodes, hn0]
  simp [List.countP_append, htail1, htail2, hcnt1, hcnt2]

theorem muchi_entry_ret_counts_witness :
    muchiLine.nodes.countP (fun n => n.id = .entryChi 0) =
      (if (0 : MR) ∈ muchiLine.usedRegs then 1 else 0) ∧
    muchiLine.nodes.countP (fun n => n.id = .retMu 0) =
      (if (0 : MR) ∈ muchiLine.usedRegs ∧ funLine.doesNotRet = false then 1 else 0) :=
  muchi_entry_ret_counts funLine state0 muchiLine rfl (by simp [state0]) (by rfl) 0

/-- C6: `buildMemSSA` on an external/opaque function fails fast with the
assertion message, producing no state at all (and hence constructing no
nodes for the function). -/
theorem buildMemSSA_external_fails (f : Func) (fuel : Nat) (s : SSAState)
    (h : f.isExt = true) :
    buildMemSSA f fuel s = .error "we do not build memory ssa for external functions" := by
  unfold buildMemSSA
  simp [h]

theorem buildMemSSA_external_fails_witness :
    buildMemSSA funExternal 5 state0 =
      .error "we do not build memory ssa for external functions" :=
  buildMemSSA_external_fails funExternal 5 state0 rfl

/-- C10: `newSSAName` can only mint a version for a region whose counter and
stack were initialized; for any other region it fails the assertion (never
returns a version), while every region in the used-region set left by
`createMUCHI` has both maps initialized, so the call succeeds. -/
theorem newSSAName_requires_initialized :
    (∀ (s : SSAState) (mr : MR),
      (getAssoc mr s.mr2CounterMap = none ∨ getAssoc mr s.mr2VerStackMap = none) →
      ∀ r, newSSAName s mr ≠ .ok r) ∧
    (∀ (f : Func) (s0 s2 : SSAState), createMUCHI f s0 = .ok s2 →
      ∀ mr ∈ s2.usedRegs, ∃ v s3, newSSAName s2 mr = .ok (v, s3)) := by
  constructor
  · intro s mr h r
    unfold newSSAName
    rcases h with h | h
    · rw [h]
      intro hc
      cases hc
    · cases hc : getAssoc mr s.mr2CounterMap with
      | none => intro hc2; cases hc2
      | some c =>
          rw [h]
          intro hc2
          cases hc2
  · intro f s0 s2 hok mr hmr
    obtain ⟨s3, hok3, _, _, _, hregs⟩ := createMUCHI_spec f s0
    rw [hok] at hok3
    injection hok3 with heq
    subst heq
    obtain ⟨hc, hv⟩ := hregs mr hmr
    exact (newSSAName_ok_iff s2 mr).mpr ⟨by rw [hc]; rfl, by rw [hv]; rfl⟩

theorem newSSAName_requires_initialized_witness :
    (∀ r, newSSAName state0 0 ≠ .ok r) ∧
    (∃ v s3, newSSAName muchiLine 0 = .ok (v, s3)) :=
  ⟨newSSAName_requires_initialized.1 state0 0 (Or.inl rfl),
    newSSAName_requires_initialized.2 funLine state0 muchiLine (by rfl) 0 (by decide)⟩

/-! ### Phi insertion: warning on frontier miss (C7) and termination (C8) -/

/-- C7: popping a worklist block that is absent from the dominance-frontier
map appends the warning message, leaves the nodes, the dedup map and the
rest of the worklist untouched, and continues the loop — it never aborts. -/
theorem insertPHILoop_df_miss_warns (f : Func) (mr : MR) (fuel : Nat) (bb : BB)
    (ws : List BB) (dedup : List (BB × MR)) (s : SSAState)
    (hmiss : dfLookup f bb = none) :
    insertPHILoop f mr (fuel + 1) (bb :: ws) dedup s =
      insertPHILoop f mr fuel ws dedup
        { s with warnings := s.warnings ++ ["bb not in the dominance frontier map??"] } := by
  simp only [insertPHILoop, hmiss]

theorem insertPHILoop_df_miss_warns_witness :
    insertPHILoop funDfMiss 0 1 [0] [] state0 =
      insertPHILoop funDfMiss 0 0 [] []
        { state0 with warnings := state0.warnings ++ ["bb not in the dominance frontier map??"] } :=
  insertPHILoop_df_miss_warns funDfMiss 0 0 0 [] [] state0 rfl

theorem getAssoc_mem {β : Type} (k : Nat) (v : β) :
    ∀ l : List (Nat × β), getAssoc k l = some v → (k, v) ∈ l := by
  intro l
  induction l with
  | nil => intro h; cases h
  | cons hd tl ih =>
      obtain ⟨k1, v1⟩ := hd
      intro h
      unfold getAssoc at h
      by_cases hk : k1 = k
      · rw [if_pos hk] at h
        injection h with hv
        subst hk
        subst hv
        exact List.mem_cons_self _ _
      · rw [if_neg hk] at h
        exact List.mem_cons_of_mem _ (ih h)

theorem mem_dfUniverse (f : Func) (bb : BB) (domSet : List BB)
    (h : dfLookup f bb = some domSet) : ∀ b ∈ domSet, b ∈ dfUniverse f := by
  intro b hb
  unfold dfUniverse
  rw [List.mem_dedup]
  refine List.mem_flatten.mpr ⟨domSet, ?_, hb⟩
  exact List.mem_map.mpr ⟨(bb, domSet), getAssoc_mem bb domSet f.df h, rfl⟩

theorem freshCard_insert (f : Func) (mr : MR) (dedup : List (BB × MR)) (pbb : BB)
    (hu : pbb ∈ dfUniverse f) (hfresh : (pbb, mr) ∉ dedup) :
    freshCard f mr ((pbb, mr) :: dedup) = freshCard f mr dedup - 1 ∧
      0 < freshCard f mr dedup := by
  have hmem : pbb ∈ (dfUniverse f).toFinset.filter (fun b => (b, mr) ∉ dedup) :=
    Finset.mem_filter.mpr ⟨List.mem_toFinset.mpr hu, hfresh⟩
  constructor
  · have hset : (dfUniverse f).toFinset.filter (fun b => (b, mr) ∉ (pbb, mr) :: dedup) =
        ((dfUniverse f).toFinset.filter (fun b => (b, mr) ∉ dedup)).erase pbb := by
      ext b
      simp only [Finset.mem_filter, Finset.mem_erase, List.mem_cons, Prod.mk.injEq]
      tauto
    rw [freshCard, freshCard, hset, Finset.card_erase_of_mem hmem]
  · exact Finset.card_pos.mpr ⟨pbb, hmem⟩

theorem freshCard_le (f : Func) (mr : MR) (dedup : List (BB × MR)) :
    freshCard f mr dedup ≤ (dfUniverse f).length :=
  le_trans (Finset.card_filter_le _ _) (dfUniverse f).toFinset_card_le

theorem frontierFold_measure (f : Func) (mr : MR) :
    ∀ (domSet ws : List BB) (dedup : List (BB × MR)) (s : SSAState),
      (∀ b ∈ domSet, b ∈ dfUniverse f) →
      (domSet.foldl (phiFrontierStep mr) (ws, dedup, s)).1.length +
          freshCard f mr (domSet.foldl (phiFrontierStep mr) (ws, dedup, s)).2.1 ≤
        ws.length + freshCard f mr dedup := by
  intro domSet
  induction domSet with
  | nil => intro ws dedup s _; exact le_refl _
  | cons pbb rest ih =>
      intro ws dedup s hsub
      rw [List.foldl_cons]
      by_cases h : (pbb, mr) ∈ dedup
      · have hstep : phiFrontierStep mr (ws, dedup, s) pbb = (ws, dedup, s) := by
          simp [phiFrontierStep, h]
        rw [hstep]
        exact ih ws dedup s (fun b hb => hsub b (List.mem_cons_of_mem _ hb))
      · have hstep : phiFrontierStep mr (ws, dedup, s) pbb =
            (pbb :: ws, (pbb, mr) :: dedup, addPhiNode s pbb mr) := by
          simp [phiFrontierStep, h]
        rw [hstep]
        obtain ⟨hdec, hpos⟩ :=
          freshCard_insert f mr dedup pbb (hsub pbb (List.mem_cons_self _ _)) h
        have hrec := ih (pbb :: ws) ((pbb, mr) :: dedup) (addPhiNode s pbb mr)
          (fun b hb => hsub b (List.mem_cons_of_mem _ hb))
        refine le_trans hrec ?_
        rw [hdec, List.length_cons]
        omega

theorem insertPHILoop_terminates (f : Func) (mr : MR) :
    ∀ (fuel : Nat) (ws : List BB) (dedup : List (BB × MR)) (s : SSAState),
      ws.length + freshCard f mr dedup ≤ fuel →
      ∃ out, insertPHILoop f mr fuel ws dedup s = some out := by
  intro fuel
  induction fuel with
  | zero =>
      intro ws dedup s h
      have hlen : ws.length = 0 := by omega
      rw [List.length_eq_zero] at hlen
      subst hlen
      exact ⟨(dedup, s), rfl⟩
  | succ fuel ih =>
      intro ws dedup s h
      match ws with
      | [] => exact ⟨(dedup, s), rfl⟩
      | bb :: ws =>
          rw [List.length_cons] at h
          cases hdf : dfLookup f bb with
          | none =>
              obtain ⟨out, hout⟩ := ih ws dedup
                { s with warnings := s.warnings ++ ["bb not in the dominance frontier map??"] }
                (by omega)
              refine ⟨out, ?_⟩
              simp only [insertPHILoop, hdf]
              exact hout
          | some domSet =>
              have hsub := mem_dfUniverse f bb domSet hdf
              have hm := frontierFold_measure f mr domSet ws dedup s hsub
              obtain ⟨out, hout⟩ := ih
                (domSet.foldl (phiFrontierStep mr) (ws, dedup, s)).1
                (domSet.foldl (phiFrontierStep mr) (ws, dedup, s)).2.1
                (domSet.foldl (phiFrontierStep mr) (ws, dedup, s)).2.2
                (by omega)
              refine ⟨out, ?_⟩
              simp only [insertPHILoop, hdf]
              exact hout

/-- C8: `insertPHI` terminates for every input — the dedup check admits at
most one push per fresh `(block, region)` phi, which bounds each region's
worklist by its initial length plus the number of frontier blocks — and a
frontier block already holding a phi for the region is neither re-inserted
nor pushed back. -/
theorem insertPHI_terminates :
    (∀ (f : Func) (s : SSAState), ∃ s2, insertPHI f s = some s2) ∧
    (∀ (mr : MR) (acc : List BB × List (BB × MR) × SSAState) (pbb : BB),
      (pbb, mr) ∈ acc.2.1 → phiFrontierStep mr acc pbb = acc) := by
  constructor
  · intro f s
    unfold insertPHI
    have haux : ∀ (regs : List MR) (acc : List (BB × MR) × SSAState),
        ∃ out, regs.foldlM
          (fun (acc : List (BB × MR) × SSAState) mr =>
            let ws := initialWorklist acc.2 mr
            insertPHILoop f mr (phiFuel f ws) ws acc.1 acc.2)
          acc = some out := by
      intro regs
      induction regs with
      | nil => intro acc; exact ⟨acc, rfl⟩
      | cons mr rest ih =>
          intro acc
          obtain ⟨out1, hout1⟩ := insertPHILoop_terminates f mr
            (phiFuel f (initialWorklist acc.2 mr)) (initialWorklist acc.2 mr) acc.1 acc.2
            (Nat.add_le_add_left (freshCard_le f mr acc.1) _)
          obtain ⟨out, hout⟩ := ih out1
          refine ⟨out, ?_⟩
          rw [List.foldlM_cons]
          simp only [hout1, Option.bind_some, Option.pure_def]
          exact hout
    obtain ⟨out, hout⟩ := haux s.usedRegs ([], s)
    exact ⟨out.2, by rw [hout]; rfl⟩
  · intro mr acc pbb h
    simp [phiFrontierStep, h]

theorem insertPHI_terminates_witness :
    (∃ s2, insertPHI funDiamond state0 = some s2) ∧
    phiFrontierStep 0 ([], [(3, 0)], state0) 3 = ([], [(3, 0)], state0) :=
  ⟨insertPHI_terminates.1 funDiamond state0,
    insertPHI_terminates.2 0 ([], [(3, 0)], state0) 3 (by decide)⟩

/-! ### Phi insertion: minimal placement (C5) -/

theorem phiCount_addPhiNode (s : SSAState) (bb : BB) (mr : MR) (b : BB) (m : MR) :
    phiCount (addPhiNode s bb mr) b m =
      phiCount s b m + (if b = bb ∧ m = mr then 1 else 0) := by
  unfold phiCount addPhiNode
  rw [List.countP_append]
  by_cases h : b = bb ∧ m = mr
  · obtain ⟨h1, h2⟩ := h
    subst h1
    subst h2
    simp [List.countP_cons]
  · simp only [List.countP_cons, List.countP_nil]
    have : (NodeId.phi bb mr = NodeId.phi b m) = False := by
      simp only [NodeId.phi.injEq, eq_iff_iff, iff_false]
      intro ⟨h1, h2⟩
      exact h ⟨h1.symm, h2.symm⟩
    simp [Node.mk, this, h]

theorem addPhiNode_fields (s : SSAState) (bb : BB) (mr : MR) :
    (addPhiNode s bb mr).usedRegs = s.usedRegs ∧
    (addPhiNode s bb mr).reg2BBMap = s.reg2BBMap ∧
    (addPhiNode s bb mr).mr2CounterMap = s.mr2CounterMap ∧
    (addPhiNode s bb mr).mr2VerStackMap = s.mr2VerStackMap :=
  ⟨rfl, rfl, rfl, rfl⟩

theorem InIDF_of_closed (f : Func) (defs : List BB) (mr : MR) (dd : List (BB × MR))
    (hdefs : ∀ b ∈ defs, ∀ c ∈ dfSet f b, (c, mr) ∈ dd)
    (hstep : ∀ b, (b, mr) ∈ dd → ∀ c ∈ dfSet f b, (c, mr) ∈ dd) :
    ∀ b, InIDF f defs b → (b, mr) ∈ dd := by
  intro b h
  induction h with
  | base hb hc => exact hdefs _ hb _ hc
  | step hb hc ih => exact hstep _ ih _ hc

/-- One pass of the frontier fold of `insertPHILoop`, relative to a region
`mr`, its defining blocks `defs` and the in-flight accumulator: every
element of the processed frontier set ends up in the dedup map, new dedup
pairs are `mr` pairs for blocks of the iterated frontier that sit on the
new worklist, the old worklist and dedup map are kept, the phi-count/dedup
correspondence for `mr` is maintained, other regions are untouched, and the
non-node state components are unchanged. -/
theorem frontierFold_inv (f : Func) (mr : MR) (defs : List BB) :
    ∀ (domSet ws : List BB) (dedup : List (BB × MR)) (s : SSAState)
      (ws2 : List BB) (dd2 : List (BB × MR)) (s2 : SSAState),
      domSet.foldl (phiFrontierStep mr) (ws, dedup, s) = (ws2, dd2, s2) →
      (∀ c ∈ domSet, InIDF f defs c) →
      (∀ b, phiCount s b mr = (if (b, mr) ∈ dedup then 1 else 0)) →
      (∀ c ∈ domSet, (c, mr) ∈ dd2) ∧
      (∀ p ∈ dd2, p ∈ dedup ∨ (p.2 = mr ∧ InIDF f defs p.1 ∧ p.1 ∈ ws2)) ∧
      (∀ p ∈ dedup, p ∈ dd2) ∧
      (∀ b ∈ ws2, b ∈ ws ∨ InIDF f defs b) ∧
      (∀ b ∈ ws, b ∈ ws2) ∧
      (∀ b, phiCount s2 b mr = (if (b, mr) ∈ dd2 then 1 else 0)) ∧
      (∀ m, m ≠ mr → ∀ b, phiCount s2 b m = phiCount s b m ∧
        ((b, m) ∈ dd2 ↔ (b, m) ∈ dedup)) ∧
      (s2.usedRegs = s.usedRegs ∧ s2.reg2BBMap = s.reg2BBMap ∧
        s2.mr2CounterMap = s.mr2CounterMap ∧ s2.mr2VerStackMap = s.mr2VerStackMap) := by
  intro domSet
  induction domSet with
  | nil =>
      intro ws dedup s ws2 dd2 s2 hfold _ hW4
      rw [List.foldl_nil] at hfold
      injection hfold with h1 h23
      injection h23 with h2 h3
      subst h1
      subst h2
      subst h3
      exact ⟨fun c hc => absurd hc (List.not_mem_nil c),
        fun p hp => Or.inl hp, fun p hp => hp, fun b hb => Or.inl hb, fun b hb => hb,
        hW4, fun m _ b => ⟨rfl, Iff.rfl⟩, rfl, rfl, rfl, rfl⟩
  | cons pbb rest ih =>
      intro ws dedup s ws2 dd2 s2 hfold hdom hW4
      rw [List.foldl_cons] at hfold
      have hdomr : ∀ c ∈ rest, InIDF f defs c :=
        fun c hc => hdom c (List.mem_cons_of_mem _ hc)
      by_cases h : (pbb, mr) ∈ dedup
      · have hstep : phiFrontierStep mr (ws, dedup, s) pbb = (ws, dedup, s) := by
          simp [phiFrontierStep, h]
        rw [hstep] at hfold
        obtain ⟨i1, i2, i3, i4, i5, i6, i7, i8⟩ := ih ws dedup s ws2 dd2 s2 hfold hdomr hW4
        refine ⟨?_, i2, i3, i4, i5, i6, i7, i8⟩
        intro c hc
        rcases List.mem_cons.mp hc with hc | hc
        · subst hc
          exact i3 _ h
        · exact i1 c hc
      · have hstep : phiFrontierStep mr (ws, dedup, s) pbb =
            (pbb :: ws, (pbb, mr) :: dedup, addPhiNode s pbb mr) := by
          simp [phiFrontierStep, h]
        rw [hstep] at hfold
        have hW4b : ∀ b, phiCount (addPhiNode s pbb mr) b mr =
            (if (b, mr) ∈ (pbb, mr) :: dedup then 1 else 0) := by
          intro b
          rw [phiCount_addPhiNode]
          by_cases hb : b = pbb
          · subst hb
            rw [hW4 b, if_neg h]
            simp
          · have hmem : ((b, mr) ∈ (pbb, mr) :: dedup) ↔ ((b, mr) ∈ dedup) := by
              simp only [List.mem_cons, Prod.mk.injEq]
              constructor
              · rintro (⟨h1, -⟩ | h2)
                · exact absurd h1 hb
                · exact h2
              · exact Or.inr
            rw [hW4 b]
            simp [hmem, hb]
        obtain ⟨i1, i2, i3, i4, i5, i6, i7, i8⟩ :=
          ih (pbb :: ws) ((pbb, mr) :: dedup) (addPhiNode s pbb mr) ws2 dd2 s2 hfold hdomr hW4b
        refine ⟨?_, ?_, ?_, ?_, ?_, i6, ?_, ?_⟩
        · intro c hc
          rcases List.mem_cons.mp hc with hc | hc
          · subst hc
            exact i3 _ (List.mem_cons_self _ _)
          · exact i1 c hc
        · intro p hp
          rcases i2 p hp with hp2 | hp2
          · rcases List.mem_cons.mp hp2 with hp3 | hp3
            · subst hp3
              exact Or.inr ⟨rfl, hdom pbb (List.mem_cons_self _ _),
                i5 pbb (List.mem_cons_self _ _)⟩
            · exact Or.inl hp3
          · exact Or.inr hp2
        · intro p hp
          exact i3 p (List.mem_cons_of_mem _ hp)
        · intro b hb
          rcases i4 b hb with hb2 | hb2
          · rcases List.mem_cons.mp hb2 with hb3 | hb3
            · subst hb3
              exact Or.inr (hdom b (List.mem_cons_self _ _))
            · exact Or.inl hb3
          · exact Or.inr hb2
        · intro b hb
          exact i5 b (List.mem_cons_of_mem _ hb)
        · intro m hm b
          obtain ⟨hcnt, hpair⟩ := i7 m hm b
          constructor
          · rw [hcnt, phiCount_addPhiNode]
            simp [hm]
          · rw [hpair]
            simp only [List.mem_cons, Prod.mk.injEq]
            constructor
            · rintro (⟨-, h2⟩ | h2)
              · exact absurd h2 hm
              · exact h2
            · exact Or.inr
        · obtain ⟨e1, e2, e3, e4⟩ := i8
          exact ⟨e1, e2, e3, e4⟩

/-- The conclusions of the worklist loop at an exhausted worklist. -/
theorem insertPHILoop_inv_base (f : Func) (mr : MR) (defs : List BB)
    (dedup : List (BB × MR)) (s : SSAState)
    (hW2 : ∀ b, (b, mr) ∈ dedup → InIDF f defs b)
    (hW3 : ∀ b, (b ∈ defs ∨ (b, mr) ∈ dedup) → ∀ c ∈ dfSet f b, (c, mr) ∈ dedup)
    (hW4 : ∀ b, phiCount s b mr = (if (b, mr) ∈ dedup then 1 else 0)) :
    (∀ b, ((b, mr) ∈ dedup ↔ InIDF f defs b)) ∧
    (∀ b, phiCount s b mr = (if (b, mr) ∈ dedup then 1 else 0)) ∧
    (∀ m, m ≠ mr → ∀ b, phiCount s b m = phiCount s b m ∧
      ((b, m) ∈ dedup ↔ (b, m) ∈ dedup)) ∧
    (∀ p ∈ dedup, p ∈ dedup ∨ p.2 = mr) ∧
    (s.usedRegs = s.usedRegs ∧ s.reg2BBMap = s.reg2BBMap ∧
      s.mr2CounterMap = s.mr2CounterMap ∧ s.mr2VerStackMap = s.mr2VerStackMap) := by
  refine ⟨?_, hW4, fun m _ b => ⟨rfl, Iff.rfl⟩, fun p hp => Or.inl hp, rfl, rfl, rfl, rfl⟩
  intro b
  constructor
  · exact hW2 b
  · exact InIDF_of_closed f defs mr dedup
      (fun b hb => hW3 b (Or.inl hb)) (fun b hb => hW3 b (Or.inr hb)) b

/-- The worklist loop of `insertPHI` for one region computes exactly the
iterated-dominance-frontier closure: on exit, a `(block, mr)` pair is in the
dedup map iff the block is in the closure of `defs`, the phi nodes for `mr`
match the dedup map exactly once each, other regions and the non-node state
components are untouched, and every new dedup pair is an `mr` pair. -/
theorem insertPHILoop_inv (f : Func) (mr : MR) (defs : List BB) :
    ∀ (fuel : Nat) (ws : List BB) (dedup : List (BB × MR)) (s : SSAState)
      (dd2 : List (BB × MR)) (s2 : SSAState),
      insertPHILoop f mr fuel ws dedup s = some (dd2, s2) →
      (∀ b ∈ ws, b ∈ defs ∨ InIDF f defs b) →
      (∀ b, (b, mr) ∈ dedup → InIDF f defs b) →
      (∀ b, (b ∈ defs ∨ (b, mr) ∈ dedup) → b ∉ ws → ∀ c ∈ dfSet f b, (c, mr) ∈ dedup) →
      (∀ b, phiCount s b mr = (if (b, mr) ∈ dedup then 1 else 0)) →
      (∀ b, ((b, mr) ∈ dd2 ↔ InIDF f defs b)) ∧
      (∀ b, phiCount s2 b mr = (if (b, mr) ∈ dd2 then 1 else 0)) ∧
      (∀ m, m ≠ mr → ∀ b, phiCount s2 b m = phiCount s b m ∧
        ((b, m) ∈ dd2 ↔ (b, m) ∈ dedup)) ∧
      (∀ p ∈ dd2, p ∈ dedup ∨ p.2 = mr) ∧
      (s2.usedRegs = s.usedRegs ∧ s2.reg2BBMap = s.reg2BBMap ∧
        s2.mr2CounterMap = s.mr2CounterMap ∧ s2.mr2VerStackMap = s.mr2VerStackMap) := by
  intro fuel
  induction fuel with
  | zero =>
      intro ws dedup s dd2 s2 hok hW1 hW2 hW3 hW4
      cases ws with
      | nil =>
          have hred : insertPHILoop f mr 0 [] dedup s = some (dedup, s) := rfl
          rw [hred] at hok
          injection hok with hok
          injection hok with h1 h2
          subst h1
          subst h2
          exact insertPHILoop_inv_base f mr defs dedup s hW2
            (fun b hb => hW3 b hb (List.not_mem_nil b)) hW4
      | cons bb tail =>
          have hred : insertPHILoop f mr 0 (bb :: tail) dedup s = none := rfl
          rw [hred] at hok
          cases hok
  | succ fuel ih =>
      intro ws dedup s dd2 s2 hok hW1 hW2 hW3 hW4
      cases ws with
      | nil =>
          have hred : insertPHILoop f mr (fuel + 1) [] dedup s = some (dedup, s) := rfl
          rw [hred] at hok
          injection hok with hok
          injection hok with h1 h2
          subst h1
          subst h2
          exact insertPHILoop_inv_base f mr defs dedup s hW2
            (fun b hb => hW3 b hb (List.not_mem_nil b)) hW4
      | cons bb tail =>
          cases hdf : dfLookup f bb with
          | none =>
              have hempty : dfSet f bb = [] := by simp [dfSet, hdf]
              rw [insertPHILoop_df_miss_warns f mr fuel bb tail dedup s hdf] at hok
              have hW1t : ∀ b ∈ tail, b ∈ defs ∨ InIDF f defs b :=
                fun b hb => hW1 b (List.mem_cons_of_mem _ hb)
              have hW3t : ∀ b, (b ∈ defs ∨ (b, mr) ∈ dedup) → b ∉ tail →
                  ∀ c ∈ dfSet f b, (c, mr) ∈ dedup := by
                intro b hb hbt c hc
                by_cases hbb : b = bb
                · subst hbb
                  rw [hempty] at hc
                  cases hc
                · exact hW3 b hb
                    (fun hmem => (List.mem_cons.mp hmem).elim hbb hbt) c hc
              have hW4t : ∀ b, phiCount
                  { s with warnings := s.warnings ++ ["bb not in the dominance frontier map??"] }
                  b mr = (if (b, mr) ∈ dedup then 1 else 0) := hW4
              obtain ⟨j1, j2, j3, j4, j5⟩ := ih tail dedup _ dd2 s2 hok hW1t hW2 hW3t hW4t
              exact ⟨j1, j2, j3, j4, j5⟩
          | some domSet =>
              have hdfs : dfSet f bb = domSet := by simp [dfSet, hdf]
              have hbbIn : bb ∈ defs ∨ InIDF f defs bb := hW1 bb (List.mem_cons_self _ _)
              have hdom : ∀ c ∈ domSet, InIDF f defs c := by
                intro c hc
                rw [← hdfs] at hc
                rcases hbbIn with hb | hb
                · exact InIDF.base hb hc
                · exact InIDF.step hb hc
              rcases hfold : domSet.foldl (phiFrontierStep mr) (tail, dedup, s)
                with ⟨ws3, dd3, s3⟩
              obtain ⟨f1, f2, f3, f4, f5, f6, f7, f8⟩ :=
                frontierFold_inv f mr defs domSet tail dedup s ws3 dd3 s3 hfold hdom hW4
              have hok2 : insertPHILoop f mr fuel ws3 dd3 s3 = some (dd2, s2) := by
                have hstep : insertPHILoop f mr (fuel + 1) (bb :: tail) dedup s =
                    insertPHILoop f mr fuel ws3 dd3 s3 := by
                  simp only [insertPHILoop, hdf, hfold]
                rw [hstep] at hok
                exact hok
              have hW1n : ∀ b ∈ ws3, b ∈ defs ∨ InIDF f defs b := by
                intro b hb
                rcases f4 b hb with hb2 | hb2
                · exact hW1 b (List.mem_cons_of_mem _ hb2)
                · exact Or.inr hb2
              have hW2n : ∀ b, (b, mr) ∈ dd3 → InIDF f defs b := by
                intro b hb
                rcases f2 (b, mr) hb with hb2 | hb2
                · exact hW2 b hb2
                · exact hb2.2.1
              have hW3n : ∀ b, (b ∈ defs ∨ (b, mr) ∈ dd3) → b ∉ ws3 →
                  ∀ c ∈ dfSet f b, (c, mr) ∈ dd3 := by
                intro b hb hbw c hc
                by_cases hbb : b = bb
                · subst hbb
                  rw [hdfs] at hc
                  exact f1 c hc
                · have hbt : b ∉ tail := fun hmem => hbw (f5 b hmem)
                  rcases hb with hb | hb
                  · exact f3 _ (hW3 b (Or.inl hb)
                      (fun hmem => (List.mem_cons.mp hmem).elim hbb hbt) c hc)
                  · rcases f2 (b, mr) hb with hb2 | hb2
                    · exact f3 _ (hW3 b (Or.inr hb2)
                        (fun hmem => (List.mem_cons.mp hmem).elim hbb hbt) c hc)
                    · exact absurd hb2.2.2 hbw
              obtain ⟨j1, j2, j3, j4, j5⟩ := ih ws3 dd3 s3 dd2 s2 hok2 hW1n hW2n hW3n f6
              refine ⟨j1, j2, ?_, ?_, ?_⟩
              · intro m hm b
                obtain ⟨jc, jp⟩ := j3 m hm b
                obtain ⟨fc, fp⟩ := f7 m hm b
                exact ⟨jc.trans fc, jp.trans fp⟩
              · intro p hp
                rcases j4 p hp with hp2 | hp2
                · rcases f2 p hp2 with hp3 | hp3
                  · exact Or.inl hp3
                  · exact Or.inr hp3.1
                · exact Or.inr hp2
              · obtain ⟨e1, e2, e3, e4⟩ := j5
                obtain ⟨g1, g2, g3, g4⟩ := f8
                exact ⟨e1.trans g1, e2.trans g2, e3.trans g3, e4.trans g4⟩

/-- The region fold of `insertPHI` characterized: afterwards the phi nodes
match the dedup pairs exactly once each; a pair `(b, m)` for a processed
region is present iff `b` is in the iterated-dominance-frontier closure of
`m`'s locally-defining blocks; unprocessed regions are untouched. -/
theorem insertPHIFold_inv (f : Func) (s0 : SSAState) :
    ∀ (regs : List MR) (dedup : List (BB × MR)) (s : SSAState)
      (out : List (BB × MR) × SSAState),
      regs.foldlM
        (fun (acc : List (BB × MR) × SSAState) mr =>
          let ws := initialWorklist acc.2 mr
          insertPHILoop f mr (phiFuel f ws) ws acc.1 acc.2)
        (dedup, s) = some out →
      regs.Nodup →
      (∀ p ∈ dedup, p.2 ∉ regs) →
      (s.reg2BBMap = s0.reg2BBMap) →
      (∀ b m, phiCount s b m = (if (b, m) ∈ dedup then 1 else 0)) →
      (∀ b m, phiCount out.2 b m = (if (b, m) ∈ out.1 then 1 else 0)) ∧
      (∀ m ∈ regs, ∀ b, ((b, m) ∈ out.1 ↔ InIDF f (defBlocks s0 m) b)) ∧
      (∀ m, m ∉ regs → ∀ b, (((b, m) ∈ out.1) ↔ ((b, m) ∈ dedup)) ∧
        phiCount out.2 b m = phiCount s b m) ∧
      (out.2.usedRegs = s.usedRegs ∧ out.2.reg2BBMap = s.reg2BBMap ∧
        out.2.mr2CounterMap = s.mr2CounterMap ∧ out.2.mr2VerStackMap = s.mr2VerStackMap) := by
  intro regs
  induction regs with
  | nil =>
      intro dedup s out hok _ _ _ hOc
      rw [List.foldlM_nil] at hok
      injection hok with hok
      subst hok
      exact ⟨hOc, fun m hm => absurd hm (List.not_mem_nil m),
        fun m _ b => ⟨Iff.rfl, rfl⟩, rfl, rfl, rfl, rfl⟩
  | cons mr rest ih =>
      intro dedup s out hok hnd hO1 hreg hOc
      rw [List.nodup_cons] at hnd
      obtain ⟨hmr, hnd⟩ := hnd
      rw [List.foldlM_cons] at hok
      cases hstep : insertPHILoop f mr (phiFuel f (initialWorklist s mr))
          (initialWorklist s mr) dedup s with
      | none =>
          rw [hstep] at hok
          cases hok
      | some acc1 =>
          rw [hstep] at hok
          simp only [Option.bind_some, Option.pure_def] at hok
          obtain ⟨dd1, s1⟩ := acc1
          have hwsmem : ∀ b, b ∈ initialWorklist s mr ↔ b ∈ defBlocks s0 mr := by
            intro b
            simp [initialWorklist, defBlocks, hreg]
          have hW1 : ∀ b ∈ initialWorklist s mr,
              b ∈ defBlocks s0 mr ∨ InIDF f (defBlocks s0 mr) b :=
            fun b hb => Or.inl ((hwsmem b).mp hb)
          have hW2 : ∀ b, (b, mr) ∈ dedup → InIDF f (defBlocks s0 mr) b :=
            fun b hb => absurd (List.mem_cons_self mr rest) (hO1 (b, mr) hb)
          have hW3 : ∀ b, (b ∈ defBlocks s0 mr ∨ (b, mr) ∈ dedup) →
              b ∉ initialWorklist s mr → ∀ c ∈ dfSet f b, (c, mr) ∈ dedup := by
            intro b hb hbw c _
            rcases hb with hb | hb
            · exact absurd ((hwsmem b).mpr hb) hbw
            · exact absurd (List.mem_cons_self mr rest) (hO1 (b, mr) hb)
          obtain ⟨l1, l2, l3, l4, l5⟩ := insertPHILoop_inv f mr (defBlocks s0 mr)
            (phiFuel f (initialWorklist s mr)) (initialWorklist s mr) dedup s dd1 s1
            hstep hW1 hW2 hW3 (fun b => hOc b mr)
          have hO1n : ∀ p ∈ dd1, p.2 ∉ rest := by
            intro p hp
            rcases l4 p hp with hp2 | hp2
            · intro hmem
              exact hO1 p hp2 (List.mem_cons_of_mem _ hmem)
            · rw [hp2]
              exact hmr
          have hregn : s1.reg2BBMap = s0.reg2BBMap := l5.2.1.trans hreg
          have hOcn : ∀ b m, phiCount s1 b m = (if (b, m) ∈ dd1 then 1 else 0) := by
            intro b m
            by_cases hm : m = mr
            · subst hm
              exact l2 b
            · obtain ⟨hc, hiff⟩ := l3 m hm b
              rw [hc, hOc b m]
              exact (if_congr hiff.symm rfl rfl)
          obtain ⟨k1, k2, k3, k4⟩ := ih dd1 s1 out hok hnd hO1n hregn hOcn
          refine ⟨k1, ?_, ?_, ?_⟩
          · intro m hm b
            rcases List.mem_cons.mp hm with hm2 | hm2
            · subst hm2
              have hnotr : m ∉ rest := hmr
              rw [(k3 m hnotr b).1]
              exact l1 b
            · exact k2 m hm2 b
          · intro m hm b
            have hm1 : m ≠ mr := fun he => hm (he ▸ List.mem_cons_self mr rest)
            have hm2 : m ∉ rest := fun he => hm (List.mem_cons_of_mem _ he)
            obtain ⟨ki, kc⟩ := k3 m hm2 b
            obtain ⟨lc, li⟩ := l3 m hm1 b
            exact ⟨ki.trans li, kc.trans lc⟩
          · exact ⟨k4.1.trans l5.1, k4.2.1.trans l5.2.1,
              k4.2.2.1.trans l5.2.2.1, k4.2.2.2.trans l5.2.2.2⟩

/-- C5: after `insertPHI`, a phi node for `(block, region)` exists iff the
region is used and the block lies in the iterated-dominance-frontier
closure of the region's locally-defining blocks, and there is never more
than one phi per `(block, region)` pair. -/
theorem insertPHI_minimal (f : Func) (s0 s2 : SSAState)
    (hnophi : ∀ b m, phiCount s0 b m = 0)
    (hnd : s0.usedRegs.Nodup)
    (hok : insertPHI f s0 = some s2) :
    ∀ bb mr,
      ((∃ n ∈ s2.nodes, n.id = .phi bb mr) ↔
        (mr ∈ s0.usedRegs ∧ InIDF f (defBlocks s0 mr) bb)) ∧
      phiCount s2 bb mr ≤ 1 := by
  unfold insertPHI at hok
  cases hfold : s0.usedRegs.foldlM
      (fun (acc : List (BB × MR) × SSAState) mr =>
        let ws := initialWorklist acc.2 mr
        insertPHILoop f mr (phiFuel f ws) ws acc.1 acc.2)
      (([] : List (BB × MR)), s0) with
  | none =>
      rw [hfold] at hok
      cases hok
  | some out =>
      rw [hfold] at hok
      simp only [Option.map_some'] at hok
      injection hok with hok
      obtain ⟨k1, k2, k3, _⟩ := insertPHIFold_inv f s0 s0.usedRegs [] s0 out hfold hnd
        (fun p hp => absurd hp (List.not_mem_nil p)) rfl
        (fun b m => by rw [hnophi b m]; simp)
      subst hok
      intro bb mr
      have hcnt : phiCount out.2 bb mr = (if (bb, mr) ∈ out.1 then 1 else 0) := k1 bb mr
      have hex : (∃ n ∈ out.2.nodes, n.id = NodeId.phi bb mr) ↔ 0 < phiCount out.2 bb mr := by
        rw [phiCount, List.countP_pos_iff]
        constructor
        · rintro ⟨n, hn, hid⟩
          exact ⟨n, hn, by simp [hid]⟩
        · rintro ⟨n, hn, hid⟩
          exact ⟨n, hn, by simpa using hid⟩
      constructor
      · rw [hex, hcnt]
        by_cases hu : mr ∈ s0.usedRegs
        · constructor
          · intro hpos
            have hmem : (bb, mr) ∈ out.1 := by
              by_contra hmem
              rw [if_neg hmem] at hpos
              exact absurd hpos (by simp)
            exact ⟨hu, (k2 mr hu bb).mp hmem⟩
          · rintro ⟨-, hidf⟩
            rw [if_pos ((k2 mr hu bb).mpr hidf)]
            exact Nat.zero_lt_one
        · have hmem : (bb, mr) ∉ out.1 := by
            intro hmem
            have h0 := (k3 mr hu bb).1.mp hmem
            simp at h0
          rw [if_neg hmem]
          simp [hu]
      · rw [hcnt]
        by_cases h : (bb, mr) ∈ out.1 <;> simp [h]

theorem insertPHI_minimal_witness :
    ((∃ n ∈ phiDiamond.nodes, n.id = .phi 3 0) ↔
      ((0 : MR) ∈ muchiDiamond.usedRegs ∧ InIDF funDiamond (defBlocks muchiDiamond 0) 3)) ∧
    phiCount phiDiamond 3 0 ≤ 1 :=
  insertPHI_minimal funDiamond muchiDiamond phiDiamond
    (fun b m => rfl) (by simp [muchiDiamond]) (by rfl) 3 0

/-! ### Renaming: stack discipline (C1), dominator-node tolerance (C2) -/

theorem foldl_rel {α β : Type} (R : β → β → Prop)
    (hrefl : ∀ b, R b b) (htrans : ∀ a b c, R a b → R b c → R a c)
    (g : β → α → β) (hg : ∀ b x, R b (g b x)) :
    ∀ (l : List α) (b : β), R b (l.foldl g b) := by
  intro l
  induction l with
  | nil => intro b; exact hrefl b
  | cons x l ih => intro b; exact htrans _ _ _ (hg b x) (ih (g b x))

theorem foldlM_rel {α β : Type} (R : β → β → Prop)
    (hrefl : ∀ b, R b b) (htrans : ∀ a b c, R a b → R b c → R a c)
    (g : β → α → Except String β)
    (hg : ∀ b x b2, g b x = .ok b2 → R b b2) :
    ∀ (l : List α) (b out : β), l.foldlM g b = .ok out → R b out := by
  intro l
  induction l with
  | nil =>
      intro b out hok
      rw [List.foldlM_nil] at hok
      injection hok with hok
      subst hok
      exact hrefl b
  | cons x l ih =>
      intro b out hok
      rw [List.foldlM_cons] at hok
      cases hx : g b x with
      | error e =>
          rw [hx] at hok
          cases hok
      | ok b1 =>
          rw [hx] at hok
          simp only [Bind.bind, Except.bind] at hok
          exact htrans _ _ _ (hg b x b1 hx) (ih b1 out hok)

theorem stackPush_of_eq {s s2 : SSAState} (h : ∀ mr, stackOf s2 mr = stackOf s mr) :
    stackPush s s2 [] :=
  fun mr => ⟨[], by rw [h mr]; simp, by simp⟩

theorem stackPush_trans {s s1 s2 : SSAState} {r1 r2 : List MR}
    (h1 : stackPush s s1 r1) (h2 : stackPush s1 s2 r2) :
    stackPush s s2 (r1 ++ r2) := by
  intro mr
  obtain ⟨p1, hp1, hl1⟩ := h1 mr
  obtain ⟨p2, hp2, hl2⟩ := h2 mr
  refine ⟨p2 ++ p1, ?_, ?_⟩
  · rw [hp2, hp1, List.append_assoc]
  · rw [List.length_append, hl1, hl2, List.count_append]
    omega

theorem newSSAName_stacks (s : SSAState) (mr : MR) (v : MRVer) (s2 : SSAState)
    (hok : newSSAName s mr = .ok (v, s2)) :
    stackOf s2 mr = v :: stackOf s mr ∧
    (∀ m, m ≠ mr → stackOf s2 m = stackOf s m) ∧
    s2.usedRegs = s.usedRegs ∧ s2.reg2BBMap = s.reg2BBMap ∧ s2.nodes = s.nodes := by
  unfold newSSAName at hok
  cases hc : getAssoc mr s.mr2CounterMap with
  | none => rw [hc] at hok; cases hok
  | some c =>
      rw [hc] at hok
      cases hs : getAssoc mr s.mr2VerStackMap with
      | none => rw [hs] at hok; cases hok
      | some stk =>
          rw [hs] at hok
          injection hok with heq
          rw [Prod.mk.injEq] at heq
          obtain ⟨hv, hst⟩ := heq
          subst hst
          subst hv
          refine ⟨?_, ?_, rfl, rfl, rfl⟩
          · simp only [stackOf, getAssoc_setAssoc_same, hs, Option.getD_some]
          · intro m hm
            simp only [stackOf, getAssoc_setAssoc_other mr m _ _ (Ne.symm hm)]

theorem newSSAName_stackPush (s : SSAState) (mr : MR) (v : MRVer) (s2 : SSAState)
    (hok : newSSAName s mr = .ok (v, s2)) :
    stackPush s s2 [mr] := by
  obtain ⟨hsame, hother, -, -, -⟩ := newSSAName_stacks s mr v s2 hok
  intro m
  by_cases hm : m = mr
  · subst hm
    exact ⟨[v], by rw [hsame]; rfl, by simp⟩
  · exact ⟨[], by rw [hother m hm]; simp, by simp [List.count_cons, hm]⟩

theorem updateNode_fields (s : SSAState) (nid : NodeId) (g : Node → Node) :
    (updateNode s nid g).usedRegs = s.usedRegs ∧
    (updateNode s nid g).reg2BBMap = s.reg2BBMap ∧
    (updateNode s nid g).mr2CounterMap = s.mr2CounterMap ∧
    (updateNode s nid g).mr2VerStackMap = s.mr2VerStackMap ∧
    (∀ mr, stackOf (updateNode s nid g) mr = stackOf s mr) :=
  ⟨rfl, rfl, rfl, rfl, fun _ => rfl⟩

/-- A renaming step that reads stack tops but pushes nothing: the stacks,
used regions and defining-block map are unchanged. -/
theorem RenameMuSet_renEq (mus : List (NodeId × MR)) (s s2 : SSAState)
    (hok : RenameMuSet s mus = .ok s2) :
    (∀ mr, stackOf s2 mr = stackOf s mr) ∧
    s2.usedRegs = s.usedRegs ∧ s2.reg2BBMap = s.reg2BBMap := by
  unfold RenameMuSet at hok
  refine foldlM_rel
    (fun a b => (∀ mr, stackOf b mr = stackOf a mr) ∧
      b.usedRegs = a.usedRegs ∧ b.reg2BBMap = a.reg2BBMap)
    (fun b => ⟨fun _ => rfl, rfl, rfl⟩)
    (fun a b c h1 h2 => ⟨fun mr => (h2.1 mr).trans (h1.1 mr),
      h2.2.1.trans h1.2.1, h2.2.2.trans h1.2.2⟩)
    _ ?_ mus s s2 hok
  intro b p b2 hstep
  unfold renameMuStep at hstep
  cases htop : getTopStackVer b p.2 with
  | error e =>
      rw [htop] at hstep
      simp only [Bind.bind, Except.bind] at hstep
      cases hstep
  | ok v =>
      rw [htop] at hstep
      simp only [Bind.bind, Except.bind, Pure.pure, Except.pure] at hstep
      injection hstep with hstep
      subst hstep
      exact ⟨fun _ => rfl, rfl, rfl⟩

theorem renEq_refl (s : SSAState) : renEq s s := ⟨fun _ => rfl, rfl, rfl⟩

theorem renEq_trans {a b c : SSAState} (h1 : renEq a b) (h2 : renEq b c) : renEq a c :=
  ⟨fun mr => (h2.1 mr).trans (h1.1 mr), h2.2.1.trans h1.2.1, h2.2.2.trans h1.2.2⟩

theorem renDelta_refl (a : SSAState × List MR) : renDelta a a :=
  ⟨⟨[], by simp, stackPush_of_eq (fun _ => rfl)⟩, rfl, rfl⟩

theorem renDelta_trans {a b c : SSAState × List MR}
    (h1 : renDelta a b) (h2 : renDelta b c) : renDelta a c := by
  obtain ⟨⟨ad1, he1, hp1⟩, hu1, hr1⟩ := h1
  obtain ⟨⟨ad2, he2, hp2⟩, hu2, hr2⟩ := h2
  exact ⟨⟨ad1 ++ ad2, by rw [he2, he1, List.append_assoc], stackPush_trans hp1 hp2⟩,
    hu2.trans hu1, hr2.trans hr1⟩

theorem renDelta_of_renEq {a : SSAState × List MR} {s2 : SSAState} (h : renEq a.1 s2) :
    renDelta a (s2, a.2) :=
  ⟨⟨[], by simp, stackPush_of_eq h.1⟩, h.2.1, h.2.2⟩

theorem renameChiStep_renDelta (acc : SSAState × List MR) (p : NodeId × MR)
    (acc2 : SSAState × List MR) (hok : renameChiStep acc p = .ok acc2) :
    renDelta acc acc2 := by
  unfold renameChiStep at hok
  cases htop : getTopStackVer acc.1 p.2 with
  | error e =>
      rw [htop] at hok
      simp only [Bind.bind, Except.bind] at hok
      cases hok
  | ok v =>
      rw [htop] at hok
      simp only [Bind.bind, Except.bind] at hok
      cases hnew : newSSAName
          (updateNode acc.1 p.1 (fun n => { n with opVer := some v })) p.2 with
      | error e =>
          rw [hnew] at hok
          cases hok
      | ok rs =>
          rw [hnew] at hok
          obtain ⟨res, s3⟩ := rs
          simp only [Pure.pure, Except.pure] at hok
          injection hok with hok
          subst hok
          refine ⟨⟨[p.2], by simp, ?_⟩, ?_, ?_⟩
          · exact newSSAName_stackPush
              (updateNode acc.1 p.1 (fun n => { n with opVer := some v })) p.2 res s3 hnew
          · exact (newSSAName_stacks
              (updateNode acc.1 p.1 (fun n => { n with opVer := some v })) p.2 res s3 hnew).2.2.1
          · exact (newSSAName_stacks
              (updateNode acc.1 p.1 (fun n => { n with opVer := some v })) p.2 res s3 hnew).2.2.2.1

theorem renamePhiResStep_renDelta (acc : SSAState × List MR) (p : NodeId × MR)
    (acc2 : SSAState × List MR) (hok : renamePhiResStep acc p = .ok acc2) :
    renDelta acc acc2 := by
  unfold renamePhiResStep at hok
  cases hnew : newSSAName acc.1 p.2 with
  | error e =>
      rw [hnew] at hok
      simp only [Bind.bind, Except.bind] at hok
      cases hok
  | ok rs =>
      rw [hnew] at hok
      obtain ⟨res, s3⟩ := rs
      simp only [Bind.bind, Except.bind, Pure.pure, Except.pure] at hok
      injection hok with hok
      subst hok
      refine ⟨⟨[p.2], by simp, ?_⟩, ?_, ?_⟩
      · exact newSSAName_stackPush _ p.2 res s3 hnew
      · exact (newSSAName_stacks _ p.2 res s3 hnew).2.2.1
      · exact (newSSAName_stacks _ p.2 res s3 hnew).2.2.2.1

theorem RenameChiSet_renDelta (s : SSAState) (chis : List (NodeId × MR)) (memRegs : List MR)
    (out : SSAState × List MR) (hok : RenameChiSet s chis memRegs = .ok out) :
    renDelta (s, memRegs) out := by
  unfold RenameChiSet at hok
  exact foldlM_rel renDelta renDelta_refl (fun a b c => renDelta_trans)
    renameChiStep renameChiStep_renDelta chis (s, memRegs) out hok

theorem RenamePhiRes_renDelta (s : SSAState) (phis : List (NodeId × MR)) (memRegs : List MR)
    (out : SSAState × List MR) (hok : RenamePhiRes s phis memRegs = .ok out) :
    renDelta (s, memRegs) out := by
  unfold RenamePhiRes at hok
  exact foldlM_rel renDelta renDelta_refl (fun a b c => renDelta_trans)
    renamePhiResStep renamePhiResStep_renDelta phis (s, memRegs) out hok

theorem RenameMuSet_renEq2 (s : SSAState) (mus : List (NodeId × MR)) (s2 : SSAState)
    (hok : RenameMuSet s mus = .ok s2) : renEq s s2 :=
  RenameMuSet_renEq mus s s2 hok

theorem renamePhiOpStep_renEq (pos : Nat) (s : SSAState) (p : NodeId × MR) (s2 : SSAState)
    (hok : renamePhiOpStep pos s p = .ok s2) : renEq s s2 := by
  unfold renamePhiOpStep at hok
  cases htop : getTopStackVer s p.2 with
  | error e =>
      rw [htop] at hok
      simp only [Bind.bind, Except.bind] at hok
      cases hok
  | ok v =>
      rw [htop] at hok
      simp only [Bind.bind, Except.bind, Pure.pure, Except.pure] at hok
      injection hok with hok
      subst hok
      exact renEq_refl _

theorem RenamePhiOps_renEq (s : SSAState) (phis : List (NodeId × MR)) (pos : Nat)
    (s2 : SSAState) (hok : RenamePhiOps s phis pos = .ok s2) : renEq s s2 := by
  unfold RenamePhiOps at hok
  exact foldlM_rel renEq renEq_refl (fun a b c => renEq_trans)
    (renamePhiOpStep pos) (renamePhiOpStep_renEq pos) phis s s2 hok

theorem renameInstEdge_renDelta (bb : BB) (instIdx : Nat) (acc : SSAState × List MR)
    (e : Nat × PAGEdge) (acc2 : SSAState × List MR)
    (hok : renameInstEdge bb instIdx acc e = .ok acc2) : renDelta acc acc2 := by
  unfold renameInstEdge at hok
  cases he : e.2 with
  | load mrs =>
      rw [he] at hok
      cases hmu : RenameMuSet acc.1 (muNodesOfLoad acc.1 bb instIdx e.1) with
      | error e2 =>
          rw [hmu] at hok
          simp only [Bind.bind, Except.bind] at hok
          cases hok
      | ok s2 =>
          rw [hmu] at hok
          simp only [Bind.bind, Except.bind, Pure.pure, Except.pure] at hok
          injection hok with hok
          subst hok
          exact renDelta_of_renEq (RenameMuSet_renEq2 _ _ _ hmu)
  | store mrs =>
      rw [he] at hok
      exact RenameChiSet_renDelta _ _ _ _ hok

theorem renameInst_renDelta (bb : BB) (acc : SSAState × List MR) (i : Nat × Inst)
    (acc2 : SSAState × List MR) (hok : renameInst bb acc i = .ok acc2) :
    renDelta acc acc2 := by
  unfold renameInst at hok
  cases hfold : (i.2.pagEdges.enum).foldlM (renameInstEdge bb i.1) acc with
  | error e =>
      rw [hfold] at hok
      simp only [Bind.bind, Except.bind] at hok
      cases hok
  | ok acc1 =>
      rw [hfold] at hok
      simp only [Bind.bind, Except.bind] at hok
      have h1 : renDelta acc acc1 :=
        foldlM_rel renDelta renDelta_refl (fun a b c => renDelta_trans)
          (renameInstEdge bb i.1) (renameInstEdge_renDelta bb i.1)
          (i.2.pagEdges.enum) acc acc1 hfold
      by_cases hc : i.2.isCall
      · rw [if_pos hc] at hok
        cases hmu : RenameMuSet acc1.1 (muNodesOfCall acc1.1 bb i.1) with
        | error e =>
            rw [hmu] at hok
            simp only [Bind.bind, Except.bind] at hok
            cases hok
        | ok s2 =>
            rw [hmu] at hok
            simp only [Bind.bind, Except.bind] at hok
            have h2 : renDelta acc1 (s2, acc1.2) :=
              renDelta_of_renEq (RenameMuSet_renEq2 _ _ _ hmu)
            have h3 : renDelta (s2, acc1.2) acc2 := RenameChiSet_renDelta _ _ _ _ hok
            exact renDelta_trans h1 (renDelta_trans h2 h3)
      · rw [if_neg hc] at hok
        by_cases hr : i.2.isRet
        · rw [if_pos hr] at hok
          cases hmu : RenameMuSet acc1.1 (retMuNodes acc1.1) with
          | error e =>
              rw [hmu] at hok
              simp only [Bind.bind, Except.bind] at hok
              cases hok
          | ok s2 =>
              rw [hmu] at hok
              simp only [Bind.bind, Except.bind, Pure.pure, Except.pure] at hok
              injection hok with hok
              subst hok
              exact renDelta_trans h1 (renDelta_of_renEq (RenameMuSet_renEq2 _ _ _ hmu))
        · rw [if_neg hr] at hok
          simp only [Pure.pure, Except.pure] at hok
          injection hok with hok
          subst hok
          exact h1

theorem renameLocal_push (f : Func) (bb : BB) (s s1 : SSAState) (regs : List MR)
    (hok : renameLocal f bb s = .ok (s1, regs)) :
    stackPush s s1 regs ∧ s1.usedRegs = s.usedRegs ∧ s1.reg2BBMap = s.reg2BBMap := by
  unfold renameLocal at hok
  cases hphi : RenamePhiRes s (phiNodesAt s bb) [] with
  | error e =>
      rw [hphi] at hok
      simp only [Bind.bind, Except.bind] at hok
      cases hok
  | ok acc1 =>
      rw [hphi] at hok
      simp only [Bind.bind, Except.bind] at hok
      have h1 : renDelta (s, []) acc1 := RenamePhiRes_renDelta _ _ _ _ hphi
      have h2 : renDelta acc1 (s1, regs) :=
        foldlM_rel renDelta renDelta_refl (fun a b c => renDelta_trans)
          (renameInst bb) (renameInst_renDelta bb) ((f.insts bb).enum) acc1 (s1, regs) hok
      obtain ⟨⟨added, he, hp⟩, hu, hr⟩ := renDelta_trans h1 h2
      simp only [List.nil_append] at he
      rw [← he] at hp
      exact ⟨hp, hu, hr⟩

theorem renameSuccOps_renEq (f : Func) (bb : BB) (s s2 : SSAState)
    (hok : renameSuccOps f bb s = .ok s2) : renEq s s2 := by
  unfold renameSuccOps at hok
  refine foldlM_rel renEq renEq_refl (fun a b c => renEq_trans) _ ?_ (f.succs bb) s s2 hok
  intro b succ b2 hstep
  cases hpos : getBBPredecessorPos f bb succ with
  | error e =>
      rw [hpos] at hstep
      simp only [Bind.bind, Except.bind] at hstep
      cases hstep
  | ok pos =>
      rw [hpos] at hstep
      simp only [Bind.bind, Except.bind] at hstep
      exact RenamePhiOps_renEq _ _ _ _ hstep

theorem popStacks_stackOf (regs : List MR) (s : SSAState) (mr : MR) :
    stackOf (popStacks regs s) mr = (stackOf s mr).drop (regs.count mr) := by
  unfold popStacks
  rw [← List.count_reverse]
  generalize regs.reverse = l
  induction l generalizing s with
  | nil => simp
  | cons a l ih =>
      rw [List.foldl_cons, ih, List.count_cons]
      by_cases ha : a = mr
      · subst ha
        have hx : stackOf
            { s with mr2VerStackMap := setAssoc a (stackOf s a).tail s.mr2VerStackMap } a =
            (stackOf s a).tail := by
          simp [stackOf, getAssoc_setAssoc_same]
        rw [hx, ← List.drop_one, List.drop_drop]
        simp [Nat.add_comm]
      · have hx : stackOf
            { s with mr2VerStackMap := setAssoc a (stackOf s a).tail s.mr2VerStackMap } mr =
            stackOf s mr := by
          simp [stackOf, getAssoc_setAssoc_other a mr _ _ ha]
        rw [hx]
        simp [ha]

theorem popStacks_fields (regs : List MR) (s : SSAState) :
    (popStacks regs s).usedRegs = s.usedRegs ∧
    (popStacks regs s).reg2BBMap = s.reg2BBMap := by
  unfold popStacks
  refine foldl_rel (fun (a b : SSAState) => b.usedRegs = a.usedRegs ∧ b.reg2BBMap = a.reg2BBMap)
    (fun b => ⟨rfl, rfl⟩) ?_ _ ?_ regs.reverse s
  · intro a b c h1 h2
    exact ⟨h2.1.trans h1.1, h2.2.trans h1.2⟩
  · intro b mr
    exact ⟨rfl, rfl⟩

theorem exceptBind_ok {α β : Type} (a : α) (k : α → Except String β) :
    Except.bind (Except.ok a) k = k a := rfl

theorem exceptBind_error {α β : Type} (e : String) (k : α → Except String β) :
    Except.bind (Except.error e : Except String α) k = .error e := rfl

/-- `SSARenameBB` at nonzero fuel, decomposed into its four phases in
order: block-local renaming (phi results then instructions), successor phi
operand filling, dominator-children recursion (skipped when the block has
no dominator-tree node), and the final popping of this block's pushes. -/
theorem SSARenameBB_succ_eq (f : Func) (fuel : Nat) (bb : BB) (s : SSAState) :
    SSARenameBB f (fuel + 1) bb s =
      Except.bind (renameLocal f bb s) (fun acc =>
        Except.bind (renameSuccOps f bb acc.1) (fun s3 =>
          Except.bind
            (match f.domChildren bb with
              | none => Except.ok s3
              | some children => children.foldlM (fun s c => SSARenameBB f fuel c s) s3)
            (fun s4 => Except.ok (popStacks acc.2 s4)))) := by
  simp only [SSARenameBB]
  cases f.domChildren bb with
  | none => rfl
  | some children => rfl

/-- `SSARenameBB` when the block has no dominator-tree node: the recursion
into dominator children is skipped; the phases still run and no failure is
raised for the missing node. -/
theorem SSARenameBB_noDomNode (f : Func) (fuel : Nat) (bb : BB) (s : SSAState)
    (hd : f.domChildren bb = none) :
    SSARenameBB f (fuel + 1) bb s =
      Except.bind (renameLocal f bb s) (fun acc =>
        Except.bind (renameSuccOps f bb acc.1) (fun s3 =>
          Except.ok (popStacks acc.2 s3))) := by
  rw [SSARenameBB_succ_eq, hd]
  rfl

/-- `SSARenameBB` when the block has a dominator-tree node with the given
children. -/
theorem SSARenameBB_domNode (f : Func) (fuel : Nat) (bb : BB) (s : SSAState)
    (children : List BB) (hd : f.domChildren bb = some children) :
    SSARenameBB f (fuel + 1) bb s =
      Except.bind (renameLocal f bb s) (fun acc =>
        Except.bind (renameSuccOps f bb acc.1) (fun s3 =>
          Except.bind (children.foldlM (fun s c => SSARenameBB f fuel c s) s3)
            (fun s4 => Except.ok (popStacks acc.2 s4)))) := by
  rw [SSARenameBB_succ_eq, hd]

theorem restore_after_pop (s s1 s4 : SSAState) (regs : List MR)
    (hP : stackPush s s1 regs) (hU : s1.usedRegs = s.usedRegs)
    (hR : s1.reg2BBMap = s.reg2BBMap) (hE : renEq s1 s4) :
    (∀ mr, stackOf (popStacks regs s4) mr = stackOf s mr) ∧
    (popStacks regs s4).usedRegs = s.usedRegs ∧
    (popStacks regs s4).reg2BBMap = s.reg2BBMap := by
  refine ⟨?_, ?_, ?_⟩
  · intro mr
    obtain ⟨pre, hpre, hlen⟩ := hP mr
    rw [popStacks_stackOf, hE.1 mr, hpre, ← hlen, List.drop_left]
  · rw [(popStacks_fields regs s4).1, hE.2.1, hU]
  · rw [(popStacks_fields regs s4).2, hE.2.2, hR]

/-- Renaming a dominator subtree restores every region's version stack to
its value at subtree entry (all pushes are matched by pops), and leaves the
used-region set and the defining-block map unchanged. -/
theorem SSARenameBB_restore (f : Func) :
    ∀ (fuel : Nat) (bb : BB) (s s2 : SSAState),
      SSARenameBB f fuel bb s = .ok s2 →
      (∀ mr, stackOf s2 mr = stackOf s mr) ∧
      s2.usedRegs = s.usedRegs ∧ s2.reg2BBMap = s.reg2BBMap := by
  intro fuel
  induction fuel with
  | zero =>
      intro bb s s2 hok
      cases hok
  | succ fuel ih =>
      intro bb s s2 hok
      cases hd : f.domChildren bb with
      | none =>
          rw [SSARenameBB_noDomNode f fuel bb s hd] at hok
          cases hl : renameLocal f bb s with
          | error e =>
              rw [hl, exceptBind_error] at hok
              cases hok
          | ok acc =>
              obtain ⟨s1, regs⟩ := acc
              rw [hl, exceptBind_ok] at hok
              obtain ⟨hP, hU, hR⟩ := renameLocal_push f bb s s1 regs hl
              cases hs : renameSuccOps f bb s1 with
              | error e =>
                  rw [hs, exceptBind_error] at hok
                  cases hok
              | ok s3 =>
                  rw [hs, exceptBind_ok] at hok
                  injection hok with hok
                  subst hok
                  exact restore_after_pop s s1 s3 regs hP hU hR
                    (renameSuccOps_renEq f bb s1 s3 hs)
      | some children =>
          rw [SSARenameBB_domNode f fuel bb s children hd] at hok
          cases hl : renameLocal f bb s with
          | error e =>
              rw [hl, exceptBind_error] at hok
              cases hok
          | ok acc =>
              obtain ⟨s1, regs⟩ := acc
              rw [hl, exceptBind_ok] at hok
              obtain ⟨hP, hU, hR⟩ := renameLocal_push f bb s s1 regs hl
              cases hs : renameSuccOps f bb s1 with
              | error e =>
                  rw [hs, exceptBind_error] at hok
                  cases hok
              | ok s3 =>
                  rw [hs, exceptBind_ok] at hok
                  have hE1 : renEq s1 s3 := renameSuccOps_renEq f bb s1 s3 hs
                  cases hcf : children.foldlM (fun s c => SSARenameBB f fuel c s) s3 with
                  | error e =>
                      rw [hcf, exceptBind_error] at hok
                      cases hok
                  | ok s4 =>
                      rw [hcf, exceptBind_ok] at hok
                      injection hok with hok
                      subst hok
                      have hE2 : renEq s3 s4 :=
                        foldlM_rel renEq renEq_refl (fun a b c => renEq_trans)
                          (fun s c => SSARenameBB f fuel c s)
                          (fun b c b2 hstep => ih c b b2 hstep)
                          children s3 s4 hcf
                      exact restore_after_pop s s1 s4 regs hP hU hR (renEq_trans hE1 hE2)

/-- C2 counterexample: a function whose blocks all lack dominator-tree
nodes builds successfully — a missing node is not a fatal failure. -/
theorem missing_domnode_not_fatal :
    funNoDomNode.domChildren funNoDomNode.entry = none ∧
    buildMemSSA funNoDomNode 10 state0 = .ok builtNoDomNode :=
  ⟨rfl, by rfl⟩

/-- C2 (amended): a basic block with no node in the dominator tree is
silently tolerated during renaming: the recursion into dominator children
is skipped and the block's phases (local renaming, successor operand
filling, popping) still run — no failure is raised for the missing node. -/
theorem rename_missing_domnode_tolerated (f : Func) (fuel : Nat) (bb : BB) (s : SSAState)
    (hd : f.domChildren bb = none) :
    SSARenameBB f (fuel + 1) bb s =
      Except.bind (renameLocal f bb s) (fun acc =>
        Except.bind (renameSuccOps f bb acc.1) (fun s3 =>
          Except.ok (popStacks acc.2 s3))) :=
  SSARenameBB_noDomNode f fuel bb s hd

theorem rename_missing_domnode_tolerated_witness :
    SSARenameBB funNoDomNode (0 + 1) 0 state0 =
      Except.bind (renameLocal funNoDomNode 0 state0) (fun acc =>
        Except.bind (renameSuccOps funNoDomNode 0 acc.1) (fun s3 =>
          Except.ok (popStacks acc.2 s3))) :=
  rename_missing_domnode_tolerated funNoDomNode 0 0 state0 rfl

theorem foldlM_rel_option {α β : Type} (R : β → β → Prop)
    (hrefl : ∀ b, R b b) (htrans : ∀ a b c, R a b → R b c → R a c)
    (g : β → α → Option β)
    (hg : ∀ b x b2, g b x = some b2 → R b b2) :
    ∀ (l : List α) (b out : β), l.foldlM g b = some out → R b out := by
  intro l
  induction l with
  | nil =>
      intro b out hok
      rw [List.foldlM_nil] at hok
      injection hok with hok
      subst hok
      exact hrefl b
  | cons x l ih =>
      intro b out hok
      rw [List.foldlM_cons] at hok
      cases hx : g b x with
      | none =>
          rw [hx] at hok
          cases hok
      | some b1 =>
          rw [hx] at hok
          simp only [Bind.bind, Option.bind] at hok
          exact htrans _ _ _ (hg b x b1 hx) (ih b1 out hok)

theorem phiFrontierStep_fields (mr : MR) (acc : List BB × List (BB × MR) × SSAState)
    (pbb : BB) :
    (phiFrontierStep mr acc pbb).2.2.usedRegs = acc.2.2.usedRegs ∧
    (phiFrontierStep mr acc pbb).2.2.mr2CounterMap = acc.2.2.mr2CounterMap ∧
    (phiFrontierStep mr acc pbb).2.2.mr2VerStackMap = acc.2.2.mr2VerStackMap := by
  unfold phiFrontierStep
  by_cases h : (pbb, mr) ∈ acc.2.1
  · rw [if_pos h]
    exact ⟨rfl, rfl, rfl⟩
  · rw [if_neg h]
    exact ⟨rfl, rfl, rfl⟩

theorem insertPHILoop_fields (f : Func) (mr : MR) :
    ∀ (fuel : Nat) (ws : List BB) (dedup : List (BB × MR)) (s : SSAState)
      (dd2 : List (BB × MR)) (s2 : SSAState),
      insertPHILoop f mr fuel ws dedup s = some (dd2, s2) →
      s2.usedRegs = s.usedRegs ∧ s2.mr2CounterMap = s.mr2CounterMap ∧
      s2.mr2VerStackMap = s.mr2VerStackMap := by
  intro fuel
  induction fuel with
  | zero =>
      intro ws dedup s dd2 s2 hok
      cases ws with
      | nil =>
          have hred : insertPHILoop f mr 0 [] dedup s = some (dedup, s) := rfl
          rw [hred] at hok
          injection hok with hok
          injection hok with h1 h2
          subst h2
          exact ⟨rfl, rfl, rfl⟩
      | cons bb tail =>
          have hred : insertPHILoop f mr 0 (bb :: tail) dedup s = none := rfl
          rw [hred] at hok
          cases hok
  | succ fuel ih =>
      intro ws dedup s dd2 s2 hok
      cases ws with
      | nil =>
          have hred : insertPHILoop f mr (fuel + 1) [] dedup s = some (dedup, s) := rfl
          rw [hred] at hok
          injection hok with hok
          injection hok with h1 h2
          subst h2
          exact ⟨rfl, rfl, rfl⟩
      | cons bb tail =>
          cases hdf : dfLookup f bb with
          | none =>
              rw [insertPHILoop_df_miss_warns f mr fuel bb tail dedup s hdf] at hok
              exact ih tail dedup
                { s with warnings := s.warnings ++ ["bb not in the dominance frontier map??"] }
                dd2 s2 hok
          | some domSet =>
              rcases hfold : domSet.foldl (phiFrontierStep mr) (tail, dedup, s)
                with ⟨ws3, dd3, s3⟩
              have hok2 : insertPHILoop f mr fuel ws3 dd3 s3 = some (dd2, s2) := by
                have hstep : insertPHILoop f mr (fuel + 1) (bb :: tail) dedup s =
                    insertPHILoop f mr fuel ws3 dd3 s3 := by
                  simp only [insertPHILoop, hdf, hfold]
                rw [hstep] at hok
                exact hok
              have hfields : s3.usedRegs = s.usedRegs ∧
                  s3.mr2CounterMap = s.mr2CounterMap ∧
                  s3.mr2VerStackMap = s.mr2VerStackMap := by
                have := foldl_rel
                  (fun (a b : List BB × List (BB × MR) × SSAState) =>
                    b.2.2.usedRegs = a.2.2.usedRegs ∧
                    b.2.2.mr2CounterMap = a.2.2.mr2CounterMap ∧
                    b.2.2.mr2VerStackMap = a.2.2.mr2VerStackMap)
                  (fun b => ⟨rfl, rfl, rfl⟩)
                  (fun a b c h1 h2 => ⟨h2.1.trans h1.1, h2.2.1.trans h1.2.1,
                    h2.2.2.trans h1.2.2⟩)
                  (phiFrontierStep mr) (phiFrontierStep_fields mr)
                  domSet (tail, dedup, s)
                rw [hfold] at this
                exact this
              obtain ⟨j1, j2, j3⟩ := ih ws3 dd3 s3 dd2 s2 hok2
              exact ⟨j1.trans hfields.1, j2.trans hfields.2.1, j3.trans hfields.2.2⟩

theorem insertPHI_fields (f : Func) (s s2 : SSAState) (hok : insertPHI f s = some s2) :
    s2.usedRegs = s.usedRegs ∧ s2.mr2CounterMap = s.mr2CounterMap ∧
    s2.mr2VerStackMap = s.mr2VerStackMap := by
  unfold insertPHI at hok
  cases hfold : s.usedRegs.foldlM
      (fun (acc : List (BB × MR) × SSAState) mr =>
        let ws := initialWorklist acc.2 mr
        insertPHILoop f mr (phiFuel f ws) ws acc.1 acc.2)
      (([] : List (BB × MR)), s) with
  | none =>
      rw [hfold] at hok
      cases hok
  | some out =>
      rw [hfold] at hok
      simp only [Option.map_some'] at hok
      injection hok with hok
      subst hok
      refine foldlM_rel_option
        (fun (a b : List (BB × MR) × SSAState) =>
          b.2.usedRegs = a.2.usedRegs ∧ b.2.mr2CounterMap = a.2.mr2CounterMap ∧
          b.2.mr2VerStackMap = a.2.mr2VerStackMap)
        (fun b => ⟨rfl, rfl, rfl⟩)
        (fun a b c h1 h2 => ⟨h2.1.trans h1.1, h2.2.1.trans h1.2.1, h2.2.2.trans h1.2.2⟩)
        _ ?_ s.usedRegs ([], s) out hfold
      intro b mr b2 hstep
      obtain ⟨db, sb⟩ := b
      obtain ⟨db2, sb2⟩ := b2
      exact insertPHILoop_fields f mr _ _ db sb db2 sb2 hstep

theorem buildMemSSA_notExt (f : Func) (renameFuel : Nat) (s : SSAState)
    (hext : f.isExt = false) :
    buildMemSSA f renameFuel s =
      Except.bind (createMUCHI f (setCurrentDFDT s)) (fun sA =>
        match insertPHI f sA with
        | none => .error "insertPHI ran out of fuel"
        | some sB => SSARename f renameFuel sB) := by
  unfold buildMemSSA
  rw [if_neg (by simp [hext])]
  rfl

/-- C1 counterexample: after a complete successful build, a used region's
version stack is NOT empty — it still holds the two versions pushed by the
entry chi of `createMUCHI`, which renaming never pops. -/
theorem final_stack_not_empty :
    buildMemSSA funLine 10 state0 = .ok builtLine ∧ stackOf builtLine 0 ≠ [] :=
  ⟨by rfl, by decide⟩

/-- C1 (amended): during renaming the number of pushes equals the number of
pops per region — `SSARenameBB` restores every region's version stack to
its entry value — and after a complete `buildMemSSA` every used region's
stack holds exactly the two entry-chi versions pushed by `createMUCHI`
(so it is not empty). -/
theorem rename_stack_balance :
    (∀ (f : Func) (fuel : Nat) (bb : BB) (s s2 : SSAState),
      SSARenameBB f fuel bb s = .ok s2 → ∀ mr, stackOf s2 mr = stackOf s mr) ∧
    (∀ (f : Func) (fuel : Nat) (s0 s2 : SSAState),
      buildMemSSA f fuel s0 = .ok s2 → ∀ mr ∈ s2.usedRegs,
        stackOf s2 mr = [⟨mr, 1⟩, ⟨mr, 0⟩]) := by
  constructor
  · intro f fuel bb s s2 hok
    exact (SSARenameBB_restore f fuel bb s s2 hok).1
  · intro f fuel s0 s2 hok mr hmr
    cases hext : f.isExt with
    | true =>
        unfold buildMemSSA at hok
        rw [if_pos (by simp [hext])] at hok
        cases hok
    | false =>
        rw [buildMemSSA_notExt f fuel s0 hext] at hok
        cases hmu : createMUCHI f (setCurrentDFDT s0) with
        | error e =>
            rw [hmu, exceptBind_error] at hok
            cases hok
        | ok sA =>
            rw [hmu, exceptBind_ok] at hok
            obtain ⟨sA2, hmu2, _, _, _, hregs⟩ := createMUCHI_spec f (setCurrentDFDT s0)
            rw [hmu] at hmu2
            injection hmu2 with heq
            subst heq
            cases hphi : insertPHI f sA with
            | none =>
                rw [hphi] at hok
                cases hok
            | some sB =>
                rw [hphi] at hok
                obtain ⟨hu, hc, hv⟩ := insertPHI_fields f sA sB hphi
                obtain ⟨hst, hu2, -⟩ :=
                  SSARenameBB_restore f fuel f.entry sB s2 hok
                have hmrA : mr ∈ sA.usedRegs := by
                  rw [← hu, ← hu2]
                  exact hmr
                obtain ⟨-, hstack⟩ := hregs mr hmrA
                rw [hst mr]
                show stackOf sB mr = _
                unfold stackOf
                rw [hv, hstack]
                rfl

theorem rename_stack_balance_witness :
    (∀ mr, stackOf builtLine mr = stackOf muchiLine mr) ∧
    stackOf builtLine 0 = [⟨0, 1⟩, ⟨0, 0⟩] :=
  ⟨rename_stack_balance.1 funLine 10 0 muchiLine builtLine (by rfl),
    rename_stack_balance.2 funLine 10 state0 builtLine (by rfl) 0 (by decide)⟩

/-! ### Renaming order and phi operand filling (C9) -/

theorem phiNodesAt_shape (s : SSAState) (b : BB) (p : NodeId × MR) (hp : p ∈ phiNodesAt s b) :
    (∃ n ∈ s.nodes, n.id = p.1) ∧ p.1 = .phi b p.2 := by
  unfold phiNodesAt at hp
  rw [List.mem_filterMap] at hp
  obtain ⟨n, hn, hmatch⟩ := hp
  cases hid : n.id with
  | phi b2 mr =>
      rw [hid] at hmatch
      simp only at hmatch
      by_cases hb : b2 = b
      · rw [if_pos (by simp [hb])] at hmatch
        injection hmatch with hmatch
        rw [← hmatch]
        exact ⟨⟨n, hn, hid⟩, by subst hb; rfl⟩
      · rw [if_neg (by simp [hb])] at hmatch
        cases hmatch
  | loadMu b2 i e mr => rw [hid] at hmatch; cases hmatch
  | storeChi b2 i e mr => rw [hid] at hmatch; cases hmatch
  | callMu b2 i mr => rw [hid] at hmatch; cases hmatch
  | callChi b2 i mr => rw [hid] at hmatch; cases hmatch
  | entryChi mr => rw [hid] at hmatch; cases hmatch
  | retMu mr => rw [hid] at hmatch; cases hmatch

theorem phiNodesAt_updateNode (s : SSAState) (nid : NodeId) (g : Node → Node)
    (hg : ∀ n, (g n).id = n.id) (b : BB) :
    phiNodesAt (updateNode s nid g) b = phiNodesAt s b := by
  unfold phiNodesAt updateNode
  simp only [List.filterMap_map]
  apply List.filterMap_congr
  intro n _
  by_cases h : n.id = nid
  · simp only [Function.comp, if_pos h, hg n]
  · simp only [Function.comp, if_neg h]

theorem updateNode_mem_other (s : SSAState) (nid : NodeId) (g : Node → Node)
    (n : Node) (hn : n ∈ s.nodes) (hne : n.id ≠ nid) :
    n ∈ (updateNode s nid g).nodes := by
  unfold updateNode
  refine List.mem_map.mpr ⟨n, hn, ?_⟩
  rw [if_neg hne]

theorem updateNode_mem_hit (s : SSAState) (nid : NodeId) (g : Node → Node)
    (n : Node) (hn : n ∈ s.nodes) (heq : n.id = nid) :
    g n ∈ (updateNode s nid g).nodes := by
  unfold updateNode
  refine List.mem_map.mpr ⟨n, hn, ?_⟩
  rw [if_pos heq]

theorem exists_id_updateNode (s : SSAState) (nid nid2 : NodeId) (g : Node → Node)
    (hg : ∀ n, (g n).id = n.id) (hex : ∃ n ∈ s.nodes, n.id = nid2) :
    ∃ n ∈ (updateNode s nid g).nodes, n.id = nid2 := by
  obtain ⟨n, hn, hid⟩ := hex
  by_cases h : n.id = nid
  · exact ⟨g n, updateNode_mem_hit s nid g n hn h, (hg n).trans hid⟩
  · exact ⟨n, updateNode_mem_other s nid g n hn h, hid⟩

theorem getTopStackVer_congr (s1 s2 : SSAState) (mr : MR)
    (h : stackOf s2 mr = stackOf s1 mr) :
    getTopStackVer s2 mr = getTopStackVer s1 mr := by
  unfold getTopStackVer
  rw [h]

theorem newSSAName_counter_other (s : SSAState) (mr : MR) (v : MRVer) (s2 : SSAState)
    (hok : newSSAName s mr = .ok (v, s2)) (m : MR) (hm : m ≠ mr) :
    getAssoc m s2.mr2CounterMap = getAssoc m s.mr2CounterMap := by
  unfold newSSAName at hok
  cases hc : getAssoc mr s.mr2CounterMap with
  | none => rw [hc] at hok; cases hok
  | some c =>
      rw [hc] at hok
      cases hs : getAssoc mr s.mr2VerStackMap with
      | none => rw [hs] at hok; cases hok
      | some stk =>
          rw [hs] at hok
          injection hok with heq
          rw [Prod.mk.injEq] at heq
          obtain ⟨-, hst⟩ := heq
          subst hst
          exact getAssoc_setAssoc_other mr m _ _ (Ne.symm hm)

theorem newSSAName_ok_inv (s : SSAState) (mr : MR) (v : MRVer) (s2 : SSAState)
    (hok : newSSAName s mr = .ok (v, s2)) :
    ∃ c, getAssoc mr s.mr2CounterMap = some c ∧ v = ⟨mr, c⟩ := by
  unfold newSSAName at hok
  cases hc : getAssoc mr s.mr2CounterMap with
  | none => rw [hc] at hok; cases hok
  | some c =>
      rw [hc] at hok
      cases hs : getAssoc mr s.mr2VerStackMap with
      | none => rw [hs] at hok; cases hok
      | some stk =>
          rw [hs] at hok
          injection hok with heq
          rw [Prod.mk.injEq] at heq
          exact ⟨c, rfl, heq.1.symm⟩

/-- Unfolding one `renamePhiResStep` with a successful mint. -/
theorem renamePhiResStep_eq (acc : SSAState × List MR) (p : NodeId × MR)
    (res : MRVer) (sN : SSAState) (hnew : newSSAName acc.1 p.2 = .ok (res, sN)) :
    renamePhiResStep acc p =
      .ok (updateNode sN p.1 (fun n => { n with resVer := some res }), acc.2 ++ [p.2]) := by
  unfold renamePhiResStep
  rw [hnew]
  rfl

/-- A phi-result fold over entries that avoid a given region and node
identity leaves that region's stack and counter, and any node with that
identity, untouched. -/
theorem phiResFold_preserve :
    ∀ (rest : List (NodeId × MR)) (acc out : SSAState × List MR),
      rest.foldlM renamePhiResStep acc = .ok out →
      ∀ (m : MR) (nid : NodeId),
      (∀ q ∈ rest, q.2 ≠ m) → (∀ q ∈ rest, q.1 ≠ nid) →
      stackOf out.1 m = stackOf acc.1 m ∧
      getAssoc m out.1.mr2CounterMap = getAssoc m acc.1.mr2CounterMap ∧
      (∀ n ∈ acc.1.nodes, n.id = nid → n ∈ out.1.nodes) := by
  intro rest
  induction rest with
  | nil =>
      intro acc out hok m nid _ _
      rw [List.foldlM_nil] at hok
      injection hok with hok
      subst hok
      exact ⟨rfl, rfl, fun n hn _ => hn⟩
  | cons q rest ih =>
      intro acc out hok m nid hm hnid
      rw [List.foldlM_cons] at hok
      cases hstep : renamePhiResStep acc q with
      | error e =>
          rw [hstep] at hok
          simp only [Bind.bind, Except.bind] at hok
          cases hok
      | ok acc1 =>
          rw [hstep] at hok
          simp only [Bind.bind, Except.bind] at hok
          unfold renamePhiResStep at hstep
          cases hnew : newSSAName acc.1 q.2 with
          | error e =>
              rw [hnew] at hstep
              simp only [Bind.bind, Except.bind] at hstep
              cases hstep
          | ok rs =>
              rw [hnew] at hstep
              obtain ⟨res, sN⟩ := rs
              simp only [Bind.bind, Except.bind, Pure.pure, Except.pure] at hstep
              injection hstep with hstep
              subst hstep
              obtain ⟨j1, j2, j3⟩ := ih _ out hok m nid
                (fun q2 hq2 => hm q2 (List.mem_cons_of_mem _ hq2))
                (fun q2 hq2 => hnid q2 (List.mem_cons_of_mem _ hq2))
              have hqm : m ≠ q.2 := Ne.symm (hm q (List.mem_cons_self _ _))
              have hqnid : q.1 ≠ nid := hnid q (List.mem_cons_self _ _)
              obtain ⟨-, hother, -, -, hnodes⟩ := newSSAName_stacks acc.1 q.2 res sN hnew
              refine ⟨?_, ?_, ?_⟩
              · rw [j1]
                exact hother m hqm
              · rw [j2]
                exact newSSAName_counter_other acc.1 q.2 res sN hnew m hqm
              · intro n hn hid
                refine j3 n ?_ hid
                refine updateNode_mem_other sN q.1 _ n ?_ ?_
                · rw [hnodes]
                  exact hn
                · rw [hid]
                  exact Ne.symm hqnid

/-- `RenamePhiRes` on phis of one block with pairwise distinct regions:
every phi's result receives the freshly minted version of its region — the
region's current counter value — and that version is pushed on the
region's stack. -/
theorem RenamePhiRes_fresh (bb : BB) :
    ∀ (phis : List (NodeId × MR)) (s : SSAState) (regs0 : List MR)
      (out : SSAState × List MR),
      phis.foldlM renamePhiResStep (s, regs0) = .ok out →
      (∀ p ∈ phis, p.1 = NodeId.phi bb p.2) →
      ((phis.map Prod.snd).Nodup) →
      (∀ p ∈ phis, ∃ n ∈ s.nodes, n.id = p.1) →
      ∀ p ∈ phis, ∃ c, getAssoc p.2 s.mr2CounterMap = some c ∧
        stackOf out.1 p.2 = ⟨p.2, c⟩ :: stackOf s p.2 ∧
        ∃ n ∈ out.1.nodes, n.id = p.1 ∧ n.resVer = some ⟨p.2, c⟩ := by
  intro phis
  induction phis with
  | nil =>
      intro s regs0 out _ _ _ _ p hp
      exact absurd hp (List.not_mem_nil p)
  | cons q rest ih =>
      intro s regs0 out hok hid hnd hex p hp
      rw [List.foldlM_cons] at hok
      cases hstep : renamePhiResStep (s, regs0) q with
      | error e =>
          rw [hstep] at hok
          simp only [Bind.bind, Except.bind] at hok
          cases hok
      | ok acc1 =>
          rw [hstep] at hok
          simp only [Bind.bind, Except.bind] at hok
          have hstep2 := hstep
          unfold renamePhiResStep at hstep2
          cases hnew : newSSAName s q.2 with
          | error e =>
              rw [hnew] at hstep2
              simp only [Bind.bind, Except.bind] at hstep2
              cases hstep2
          | ok rs =>
              rw [hnew] at hstep2
              obtain ⟨res, sN⟩ := rs
              simp only [Bind.bind, Except.bind, Pure.pure, Except.pure] at hstep2
              injection hstep2 with hstep2
              subst hstep2
              rw [List.map_cons, List.nodup_cons] at hnd
              obtain ⟨hq_notin, hnd_rest⟩ := hnd
              obtain ⟨c, hc, hres⟩ := newSSAName_ok_inv s q.2 res sN hnew
              subst hres
              obtain ⟨hsame, hother, -, -, hnodes⟩ := newSSAName_stacks s q.2 _ sN hnew
              have hrest_ne : ∀ q2 ∈ rest, q2.2 ≠ q.2 := by
                intro q2 hq2 he
                exact hq_notin (he ▸ List.mem_map_of_mem Prod.snd hq2)
              have hrest_nid : ∀ q2 ∈ rest, q2.1 ≠ q.1 := by
                intro q2 hq2 he
                have h1 := hid q2 (List.mem_cons_of_mem _ hq2)
                have h2 := hid q (List.mem_cons_self _ _)
                rw [h1, h2] at he
                injection he with he1 he2
                exact hrest_ne q2 hq2 he2
              rcases List.mem_cons.mp hp with hpq | hpr
              · subst hpq
                obtain ⟨j1, -, j3⟩ := phiResFold_preserve rest _ out hok p.2 p.1
                  hrest_ne hrest_nid
                refine ⟨c, hc, ?_, ?_⟩
                · rw [j1]
                  show stackOf sN p.2 = _
                  rw [hsame]
                · obtain ⟨n0, hn0, hid0⟩ := hex p (List.mem_cons_self _ _)
                  refine ⟨{ n0 with resVer := some ⟨p.2, c⟩ }, ?_, ?_, rfl⟩
                  · refine j3 _ ?_ hid0
                    refine updateNode_mem_hit sN p.1 _ n0 ?_ hid0
                    rw [hnodes]
                    exact hn0
                  · exact hid0
              · have hex2 : ∀ p2 ∈ rest, ∃ n ∈
                    (updateNode sN q.1 (fun n => { n with resVer := some ⟨q.2, c⟩ })).nodes,
                    n.id = p2.1 := by
                  intro p2 hp2
                  refine exists_id_updateNode sN q.1 p2.1 _ (fun n => rfl) ?_
                  rw [hnodes]
                  exact hex p2 (List.mem_cons_of_mem _ hp2)
                obtain ⟨c2, hc2, hst2, hnode2⟩ := ih _ _ out hok
                  (fun p2 hp2 => hid p2 (List.mem_cons_of_mem _ hp2)) hnd_rest hex2
                  p hpr
                have hpne : p.2 ≠ q.2 := fun he =>
                  hq_notin (he ▸ List.mem_map_of_mem Prod.snd hpr)
                refine ⟨c2, ?_, ?_, hnode2⟩
                · rw [← hc2]
                  exact (newSSAName_counter_other s q.2 _ sN hnew p.2 hpne).symm
                · rw [hst2]
                  show _ :: stackOf sN p.2 = _
                  rw [hother p.2 hpne]

/-- `RenamePhiOps` over the phis of one block: (fill) every phi of the set
has its region's current top of stack written into its slot at `pos`, and
(keep) a node's already-correct slot entry survives the fold — later writes
to the same node hit the same slot with the same value. -/
theorem RenamePhiOps_fills (pos : Nat) :
    ∀ (phis : List (NodeId × MR)) (st st2 : SSAState),
      phis.foldlM (renamePhiOpStep pos) st = .ok st2 →
      (∀ q1 ∈ phis, ∀ q2 ∈ phis, q1.1 = q2.1 → q1.2 = q2.2) →
      (∀ q ∈ phis, ∃ n ∈ st.nodes, n.id = q.1) →
      (∀ p ∈ phis, ∃ v, getTopStackVer st p.2 = .ok v ∧
        ∃ n ∈ st2.nodes, n.id = p.1 ∧ getAssoc pos n.phiOps = some v) ∧
      (∀ (nid : NodeId) (pos2 : Nat) (v2 : MRVer),
        (pos2 = pos → ∀ q ∈ phis, q.1 = nid → getTopStackVer st q.2 = .ok v2) →
        (∃ n ∈ st.nodes, n.id = nid ∧ getAssoc pos2 n.phiOps = some v2) →
        ∃ n ∈ st2.nodes, n.id = nid ∧ getAssoc pos2 n.phiOps = some v2) := by
  intro phis
  induction phis with
  | nil =>
      intro st st2 hok _ _
      rw [List.foldlM_nil] at hok
      injection hok with hok
      subst hok
      exact ⟨fun p hp => absurd hp (List.not_mem_nil p), fun nid pos2 v2 _ h => h⟩
  | cons q rest ih =>
      intro st st2 hok hcons hex
      rw [List.foldlM_cons] at hok
      cases hstep : renamePhiOpStep pos st q with
      | error e =>
          rw [hstep] at hok
          simp only [Bind.bind, Except.bind] at hok
          cases hok
      | ok st1 =>
          rw [hstep] at hok
          simp only [Bind.bind, Except.bind] at hok
          have hstep2 := hstep
          unfold renamePhiOpStep at hstep2
          cases htop : getTopStackVer st q.2 with
          | error e =>
              rw [htop] at hstep2
              simp only [Bind.bind, Except.bind] at hstep2
              cases hstep2
          | ok v =>
              rw [htop] at hstep2
              simp only [Bind.bind, Except.bind, Pure.pure, Except.pure] at hstep2
              injection hstep2 with hstep2
              subst hstep2
              have hstack1 : ∀ mr, stackOf
                  (updateNode st q.1
                    (fun n => { n with phiOps := setAssoc pos v n.phiOps })) mr =
                  stackOf st mr := fun _ => rfl
              have htops : ∀ m, getTopStackVer
                  (updateNode st q.1
                    (fun n => { n with phiOps := setAssoc pos v n.phiOps })) m =
                  getTopStackVer st m :=
                fun m => getTopStackVer_congr st _ m (hstack1 m)
              have hex1 : ∀ q2 ∈ rest, ∃ n ∈
                  (updateNode st q.1
                    (fun n => { n with phiOps := setAssoc pos v n.phiOps })).nodes,
                  n.id = q2.1 := by
                intro q2 hq2
                exact exists_id_updateNode st q.1 q2.1 _ (fun n => rfl)
                  (hex q2 (List.mem_cons_of_mem _ hq2))
              have hcons1 : ∀ q1 ∈ rest, ∀ q2 ∈ rest, q1.1 = q2.1 → q1.2 = q2.2 :=
                fun q1 h1 q2 h2 =>
                  hcons q1 (List.mem_cons_of_mem _ h1) q2 (List.mem_cons_of_mem _ h2)
              obtain ⟨ihFill, ihKeep⟩ := ih _ st2 hok hcons1 hex1
              constructor
              · intro p hp
                rcases List.mem_cons.mp hp with hpq | hpr
                · subst hpq
                  refine ⟨v, htop, ?_⟩
                  obtain ⟨n0, hn0, hid0⟩ := hex p (List.mem_cons_self _ _)
                  refine ihKeep p.1 pos v ?_ ?_
                  · intro _ q2 hq2 hq2id
                    have : q2.2 = p.2 :=
                      hcons q2 (List.mem_cons_of_mem _ hq2) p (List.mem_cons_self _ _) hq2id
                    rw [this, htops p.2]
                    exact htop
                  · refine ⟨{ n0 with phiOps := setAssoc pos v n0.phiOps }, ?_, hid0, ?_⟩
                    · exact updateNode_mem_hit st p.1 _ n0 hn0 hid0
                    · exact getAssoc_setAssoc_same pos v n0.phiOps
                · obtain ⟨v2, htop2, hnode2⟩ := ihFill p hpr
                  rw [htops p.2] at htop2
                  exact ⟨v2, htop2, hnode2⟩
              · intro nid pos2 v2 hcond hnode
                refine ihKeep nid pos2 v2 ?_ ?_
                · intro hpp q2 hq2 hq2id
                  rw [htops q2.2]
                  exact hcond hpp q2 (List.mem_cons_of_mem _ hq2) hq2id
                · obtain ⟨n0, hn0, hid0, hslot⟩ := hnode
                  by_cases hq0 : n0.id = q.1
                  · refine ⟨{ n0 with phiOps := setAssoc pos v n0.phiOps }, ?_, hid0, ?_⟩
                    · exact updateNode_mem_hit st q.1 _ n0 hn0 hq0
                    · by_cases hpp : pos2 = pos
                      · have hv2 : getTopStackVer st q.2 = .ok v2 := by
                          refine hcond hpp q (List.mem_cons_self _ _) ?_
                          rw [← hid0, hq0]
                        rw [htop] at hv2
                        injection hv2 with hv2
                        subst hpp
                        rw [getAssoc_setAssoc_same, hv2]
                      · rw [getAssoc_setAssoc_other pos pos2 v n0.phiOps
                          (fun he => hpp he.symm)]
                        exact hslot
                  · exact ⟨n0, updateNode_mem_other st q.1 _ n0 hn0 hq0, hid0, hslot⟩

theorem RenamePhiOps_phiNodesAt (pos : Nat) :
    ∀ (phis : List (NodeId × MR)) (st st2 : SSAState),
      phis.foldlM (renamePhiOpStep pos) st = .ok st2 →
      ∀ b, phiNodesAt st2 b = phiNodesAt st b := by
  intro phis st st2 hok
  refine foldlM_rel (fun a b => ∀ c, phiNodesAt b c = phiNodesAt a c)
    (fun b c => rfl) (fun a b c h1 h2 d => (h2 d).trans (h1 d))
    (renamePhiOpStep pos) ?_ phis st st2 hok
  intro b p b2 hstep
  unfold renamePhiOpStep at hstep
  cases htop : getTopStackVer b p.2 with
  | error e =>
      rw [htop] at hstep
      simp only [Bind.bind, Except.bind] at hstep
      cases hstep
  | ok v =>
      rw [htop] at hstep
      simp only [Bind.bind, Except.bind, Pure.pure, Except.pure] at hstep
      injection hstep with hstep
      subst hstep
      exact phiNodesAt_updateNode b p.1 _ (fun n => rfl)

/-- The successor loop of `SSARenameBB`, characterized: every phi of every
listed successor has its operand slot at this block's predecessor position
filled with the region's top-of-stack version, and already-filled correct
slots survive the rest of the loop. -/
theorem renameSuccOps_fills_aux (f : Func) (bb : BB) :
    ∀ (L : List BB) (st st2 : SSAState),
      L.foldlM (fun s succ => do
          let pos ← getBBPredecessorPos f bb succ
          RenamePhiOps s (phiNodesAt s succ) pos) st = .ok st2 →
      (∀ succ ∈ L, ∀ p ∈ phiNodesAt st succ, ∃ pos v,
        getBBPredecessorPos f bb succ = .ok pos ∧ getTopStackVer st p.2 = .ok v ∧
        ∃ n ∈ st2.nodes, n.id = p.1 ∧ getAssoc pos n.phiOps = some v) ∧
      (∀ (succ0 : BB) (m : MR) (pos0 : Nat) (v0 : MRVer),
        getTopStackVer st m = .ok v0 →
        (∃ n ∈ st.nodes, n.id = NodeId.phi succ0 m ∧ getAssoc pos0 n.phiOps = some v0) →
        ∃ n ∈ st2.nodes, n.id = NodeId.phi succ0 m ∧ getAssoc pos0 n.phiOps = some v0) := by
  intro L
  induction L with
  | nil =>
      intro st st2 hok
      rw [List.foldlM_nil] at hok
      injection hok with hok
      subst hok
      exact ⟨fun succ hs => absurd hs (List.not_mem_nil succ),
        fun succ0 m pos0 v0 _ h => h⟩
  | cons succ1 rest ih =>
      intro st st2 hok
      rw [List.foldlM_cons] at hok
      cases hpos : getBBPredecessorPos f bb succ1 with
      | error e =>
          rw [show (do
              let pos ← getBBPredecessorPos f bb succ1
              RenamePhiOps st (phiNodesAt st succ1) pos) = (.error e : Except String SSAState) by
            rw [hpos]
            rfl] at hok
          simp only [Bind.bind, Except.bind] at hok
          cases hok
      | ok pos1 =>
          have hhead : (do
              let pos ← getBBPredecessorPos f bb succ1
              RenamePhiOps st (phiNodesAt st succ1) pos) =
              RenamePhiOps st (phiNodesAt st succ1) pos1 := by
            rw [hpos]
            rfl
          rw [hhead] at hok
          cases hR : RenamePhiOps st (phiNodesAt st succ1) pos1 with
          | error e =>
              rw [hR] at hok
              simp only [Bind.bind, Except.bind] at hok
              cases hok
          | ok stM =>
              rw [hR] at hok
              simp only [Bind.bind, Except.bind] at hok
              have hRf : (phiNodesAt st succ1).foldlM (renamePhiOpStep pos1) st = .ok stM := hR
              have hcons : ∀ q1 ∈ phiNodesAt st succ1, ∀ q2 ∈ phiNodesAt st succ1,
                  q1.1 = q2.1 → q1.2 = q2.2 := by
                intro q1 h1 q2 h2 he
                have s1 := (phiNodesAt_shape st succ1 q1 h1).2
                have s2 := (phiNodesAt_shape st succ1 q2 h2).2
                rw [s1, s2] at he
                rw [NodeId.phi.injEq] at he
                exact he.2
              have hex : ∀ q ∈ phiNodesAt st succ1, ∃ n ∈ st.nodes, n.id = q.1 :=
                fun q hq => (phiNodesAt_shape st succ1 q hq).1
              obtain ⟨hFill, hKeep⟩ := RenamePhiOps_fills pos1 (phiNodesAt st succ1) st stM
                hRf hcons hex
              have hstacks : ∀ mr, stackOf stM mr = stackOf st mr :=
                (RenamePhiOps_renEq st (phiNodesAt st succ1) pos1 stM hR).1
              have htops : ∀ m, getTopStackVer stM m = getTopStackVer st m :=
                fun m => getTopStackVer_congr st stM m (hstacks m)
              have hphiAt : ∀ b, phiNodesAt stM b = phiNodesAt st b :=
                RenamePhiOps_phiNodesAt pos1 (phiNodesAt st succ1) st stM hRf
              obtain ⟨ih2, ih3⟩ := ih stM st2 hok
              constructor
              · intro succ hsucc p hp
                rcases List.mem_cons.mp hsucc with hs1 | hsr
                · subst hs1
                  obtain ⟨v, htop, hnode⟩ := hFill p hp
                  have hpid := (phiNodesAt_shape st succ p hp).2
                  refine ⟨pos1, v, hpos, htop, ?_⟩
                  rw [hpid]
                  refine ih3 succ p.2 pos1 v (by rw [htops p.2]; exact htop) ?_
                  rw [← hpid]
                  exact hnode
                · obtain ⟨pos, v, hpos2, htop2, hnode2⟩ := ih2 succ hsr p
                    (by rw [hphiAt succ]; exact hp)
                  rw [htops p.2] at htop2
                  exact ⟨pos, v, hpos2, htop2, hnode2⟩
              · intro succ0 m pos0 v0 htop0 hnode0
                refine ih3 succ0 m pos0 v0 ?_ ?_
                · rw [htops m]
                  exact htop0
                · refine hKeep (NodeId.phi succ0 m) pos0 v0 ?_ hnode0
                  intro _ q hq hqid
                  have hs := (phiNodesAt_shape st succ1 q hq).2
                  rw [hs] at hqid
                  injection hqid with he1 he2
                  rw [he2]
                  exact htop0

/-- C9: during renaming of a block, the phi results of the block are
assigned freshly minted versions (pushed on their regions' stacks) before
any phi operand is filled — `renameLocal` runs `RenamePhiRes` before the
instruction walk, and the successor phase runs after `renameLocal` (see
`SSARenameBB`); and for every control-flow successor, the operand slot of
each of the successor's phi nodes indexed by this block's position among
the successor's predecessors is filled with the current per-region
top-of-stack version. -/
theorem rename_phi_order_and_operands :
    (∀ (f : Func) (bb : BB) (s : SSAState),
      renameLocal f bb s =
        Except.bind (RenamePhiRes s (phiNodesAt s bb) [])
          (fun acc => ((f.insts bb).enum).foldlM (renameInst bb) acc)) ∧
    (∀ (bb : BB) (s : SSAState) (out : SSAState × List MR),
      RenamePhiRes s (phiNodesAt s bb) [] = .ok out →
      ((phiNodesAt s bb).map Prod.snd).Nodup →
      ∀ p ∈ phiNodesAt s bb, ∃ c, getAssoc p.2 s.mr2CounterMap = some c ∧
        stackOf out.1 p.2 = ⟨p.2, c⟩ :: stackOf s p.2 ∧
        ∃ n ∈ out.1.nodes, n.id = p.1 ∧ n.resVer = some ⟨p.2, c⟩) ∧
    (∀ (f : Func) (bb : BB) (s1 s3 : SSAState),
      renameSuccOps f bb s1 = .ok s3 →
      ∀ succ ∈ f.succs bb, ∀ p ∈ phiNodesAt s1 succ,
        ∃ pos v, getBBPredecessorPos f bb succ = .ok pos ∧
          getTopStackVer s1 p.2 = .ok v ∧
          ∃ n ∈ s3.nodes, n.id = p.1 ∧ getAssoc pos n.phiOps = some v) := by
  refine ⟨fun f bb s => rfl, ?_, ?_⟩
  · intro bb s out hok hnd
    exact RenamePhiRes_fresh bb (phiNodesAt s bb) s [] out hok
      (fun p hp => (phiNodesAt_shape s bb p hp).2) hnd
      (fun p hp => (phiNodesAt_shape s bb p hp).1)
  · intro f bb s1 s3 hok
    exact (renameSuccOps_fills_aux f bb (f.succs bb) s1 s3 hok).1

theorem rename_phi_order_and_operands_witness :
    (∃ c, getAssoc (0 : MR) phiDiamond.mr2CounterMap = some c ∧
      stackOf phiResDiamond 0 = ⟨0, c⟩ :: stackOf phiDiamond 0 ∧
      ∃ n ∈ phiResDiamond.nodes, n.id = NodeId.phi 3 0 ∧ n.resVer = some ⟨0, c⟩) ∧
    (∃ pos v, getBBPredecessorPos funDiamond 1 3 = .ok pos ∧
      getTopStackVer phiDiamond 0 = .ok v ∧
      ∃ n ∈ succOpsDiamond.nodes, n.id = NodeId.phi 3 0 ∧ getAssoc pos n.phiOps = some v) :=
  ⟨rename_phi_order_and_operands.2.1 3 phiDiamond (phiResDiamond, [0]) (by rfl) (by decide)
      (NodeId.phi 3 0, 0) (by decide),
    rename_phi_order_and_operands.2.2 funDiamond 1 phiDiamond succOpsDiamond (by rfl)
      3 (by decide) (NodeId.phi 3 0, 0) (by decide)⟩

end MemSSA
